import Mathlib

/-!
A shallow embedding of the `prolog` interpreter (src/types.rs, src/parser.rs).

The Rust program keeps variable bindings in shared mutable cells
(`Rc<RefCell<Option<Term>>>`).  The embedding makes that state explicit:

* a binding cell is an address (`Nat`) into `State.cells`;
* cloning a Rust `Variable` clones the handle, i.e. copies the address;
* the global fresh-id counter (`next_id`) is `State.nextId`;
* the indentation counter used by tracing (`LEVEL`) is `State.level`.

Functions that recurse through cell contents can diverge in Rust (there is
no occurs check), so every such function takes a fuel argument and returns
`.div` when fuel runs out; divergence of the Rust code corresponds to the
result being `.div` for every fuel.  `RefCell` dynamic borrow failures
(`BorrowMutError` panics) are modelled precisely: a frame that holds a
`borrow_mut()` guard across a nested call passes the guarded cell address in
a `locked` list, and any access to a locked cell yields `.panic`.

Debug tracing (`debug_println!`) is modelled by computing the rendered text
of every `{}` argument (mirroring `src/display.rs`) when the debug flag is
on; the text itself is discarded (stdout is not modelled), but a rendering
that diverges or panics makes the whole call diverge or panic, exactly as
in Rust.  The render functions take their own fuel `rfuel`.

All recursive functions are structurally recursive on their fuel so that
concrete runs reduce by `rfl` in the kernel.  Mutually recursive families
from the source are merged into single functions over a request sum type
(`UReq`, `DReq`, ...); each source function has a wrapper with its name.
-/

namespace Prolog

/-- `Atom` (src/types.rs): an immutable name; atoms are equal iff names are. -/
structure Atom where
  name : String
deriving DecidableEq

/-- `Variable` (src/types.rs): textual name, process-unique `id`, and the
binding cell, modelled by its address `cell` into `State.cells`.  Rust
`PartialEq`/`Hash` for `Variable` use only `(name, id)` — see `sameNI`. -/
structure Variable where
  name : String
  id : Nat
  cell : Nat
deriving DecidableEq

/-- The source's `Variable` equality: `name` and `id` only, never the cell. -/
def Variable.sameNI (v w : Variable) : Bool :=
  v.name == w.name && v.id == w.id

/-- `Term` (src/types.rs): `Var | Pred | List`.  The source's `List` is a
cons-list of boxed terms, modelled as `List Term`; the `Predicate` struct's
two fields (`name`, `arguments`) are inlined into the `Pred` constructor. -/
inductive Term where
  | Var : Variable → Term
  | Pred : Atom → List Term → Term
  | list : List Term → Term

/-- `Predicate` (src/types.rs): `{ name: Atom, arguments: List }`. -/
structure Predicate where
  name : Atom
  arguments : List Term

/-- `Clause` (src/types.rs): `{ result: Predicate, conditions: List }`. -/
structure Clause where
  result : Predicate
  conditions : List Term

/-- The mutable interpreter state: the fresh-id counter, the store of
binding cells (indexed by address), and the tracing indentation level. -/
structure State where
  nextId : Nat
  cells : List (Option Term)
  level : Nat

/-- Reading a binding cell (`*assignment.borrow()`); an address outside the
store reads as unbound (no such cell is ever produced by the program). -/
def State.read (σ : State) (c : Nat) : Option Term :=
  σ.cells.getD c none

/-- Writing a binding cell (`*assignment.borrow_mut() = Some(t)`). -/
def State.write (σ : State) (c : Nat) (t : Term) : State :=
  { σ with cells := σ.cells.set c (some t) }

/-- `shift()` (src/types.rs): increment the tracing indentation level. -/
def State.shift (σ : State) : State :=
  { σ with level := σ.level + 1 }

/-- `unshift()` (src/types.rs): decrement the tracing indentation level. -/
def State.unshift (σ : State) : State :=
  { σ with level := σ.level - 1 }

/-- `Variable::brand_new` (src/types.rs): a fresh id from the global
counter and a brand new unbound cell. -/
def Variable.brand_new (nm : String) (σ : State) : Variable × State :=
  (⟨nm, σ.nextId, σ.cells.length⟩,
    { nextId := σ.nextId + 1, cells := σ.cells ++ [none], level := σ.level })

/-- The renaming dictionary `HashMap<Variable, Variable>`; keyed by the
source's `(name, id)` equality. -/
abbrev Dict := List (Variable × Variable)

def Dict.lookupNI : Dict → Variable → Option Variable
  | [], _ => none
  | (k, w) :: rest, v => if k.sameNI v then some w else Dict.lookupNI rest v

/-- `Variable::instantiate` (src/types.rs): an assigned variable is returned
unchanged; an unbound one is looked up in the dict, with a brand new
variable inserted on a miss. -/
def Variable.instantiate (v : Variable) (dict : Dict) (σ : State) :
    Variable × Dict × State :=
  match σ.read v.cell with
  | some _ => (v, dict, σ)
  | none =>
    match Dict.lookupNI dict v with
    | some w => (w, dict, σ)
    | none =>
      let (w, σ') := Variable.brand_new v.name σ
      (w, (v, w) :: dict, σ')

/-- HashSet-of-Variables insert: dedup by the source's `(name, id)` equality.
Rust's `HashSet` iteration order is unspecified; the embedding fixes
first-insertion order. -/
def insertNI (l : List Variable) (v : Variable) : List Variable :=
  if l.any (fun w => w.sameNI v) then l else l ++ [v]

/-- `for v in m { l.insert(v) }`. -/
def unionNI (l m : List Variable) : List Variable :=
  m.foldl insertNI l

/-- Requests for the `variables` family (`Term::variables`,
`List::variables`; `Predicate::variables` is `.l p.arguments`). -/
inductive VReq where
  | t : Term → VReq
  | l : List Term → VReq

/-- The `variables` family (src/types.rs), fuelled. -/
def varsStep : Nat → VReq → Option (List Variable)
  | 0, _ => none
  | _+1, .t (.Var v) => some [v]
  | fuel+1, .t (.Pred _ args) => varsStep fuel (.l args)
  | fuel+1, .t (.list l) => varsStep fuel (.l l)
  | _+1, .l [] => some []
  | fuel+1, .l (x :: xs) =>
    (varsStep fuel (.t x)).bind fun a =>
      (varsStep fuel (.l xs)).map fun b => unionNI a b

/-- Requests for the `instantiate` family. -/
inductive IReq where
  | t : Term → IReq
  | l : List Term → IReq
  | p : Predicate → IReq
  | c : Clause → IReq

/-- Results for the `instantiate` family (same shape as the request). -/
inductive IRes where
  | t : Term → IRes
  | l : List Term → IRes
  | p : Predicate → IRes
  | c : Clause → IRes

/-- The `instantiate` family (src/types.rs) on `Term`/`List`/`Predicate`/
`Clause`, threading the dict and the state (`Atom::instantiate` is a clone
and is inlined). -/
def instStep : Nat → IReq → Dict → State → Option (IRes × Dict × State)
  | 0, _, _, _ => none
  | fuel+1, .t x, d, σ =>
    match x with
    | .Var v =>
      let (w, d', σ') := v.instantiate d σ
      some (.t (.Var w), d', σ')
    | .Pred n args =>
      (instStep fuel (.l args) d σ).bind fun r =>
        match r with
        | (.l args', d', σ') => some (.t (.Pred n args'), d', σ')
        | _ => none
    | .list l =>
      (instStep fuel (.l l) d σ).bind fun r =>
        match r with
        | (.l l', d', σ') => some (.t (.list l'), d', σ')
        | _ => none
  | _+1, .l [], d, σ => some (.l [], d, σ)
  | fuel+1, .l (x :: xs), d, σ =>
    (instStep fuel (.t x) d σ).bind fun r =>
      match r with
      | (.t x', d', σ') =>
        (instStep fuel (.l xs) d' σ').bind fun r' =>
          match r' with
          | (.l xs', d'', σ'') => some (.l (x' :: xs'), d'', σ'')
          | _ => none
      | _ => none
  | fuel+1, .p pr, d, σ =>
    (instStep fuel (.l pr.arguments) d σ).bind fun r =>
      match r with
      | (.l args', d', σ') => some (.p ⟨pr.name, args'⟩, d', σ')
      | _ => none
  | fuel+1, .c cl, d, σ =>
    (instStep fuel (.p cl.result) d σ).bind fun r =>
      match r with
      | (.p res', d', σ') =>
        (instStep fuel (.l cl.conditions) d' σ').bind fun r' =>
          match r' with
          | (.l conds', d'', σ'') => some (.c ⟨res', conds'⟩, d'', σ'')
          | _ => none
      | _ => none

/-- `Clause::instantiate` (src/types.rs), fuelled. -/
def Clause.instantiate (fuel : Nat) (c : Clause) (d : Dict) (σ : State) :
    Option (IRes × Dict × State) :=
  instStep fuel (.c c) d σ

/-- Result of rendering a `Display` implementation (src/display.rs):
the text, or divergence (infinite recursion through cells), or a `RefCell`
borrow panic (reading a cell currently mutably borrowed up the stack). -/
inductive ROut where
  | div : ROut
  | panic : ROut
  | ok : String → ROut

/-- Requests for the `Display` family (src/display.rs). -/
inductive RReq where
  | t : Term → RReq
  | l : List Term → RReq

/-- The `Display` family (src/display.rs), fuelled.  `Variable` prints
`name`, `id`, then `[None]` or the bracketed rendering of its binding;
`Predicate` prints `name(args)`; `List` prints comma-separated elements. -/
def renderStep : Nat → List Nat → State → RReq → ROut
  | 0, _, _, _ => .div
  | fuel+1, locked, σ, .t (.Var v) =>
    if v.cell ∈ locked then .panic
    else
      match σ.read v.cell with
      | none => .ok (v.name ++ toString v.id ++ "[None]")
      | some t =>
        match renderStep fuel locked σ (.t t) with
        | .ok s => .ok (v.name ++ toString v.id ++ "[" ++ s ++ "]")
        | e => e
  | fuel+1, locked, σ, .t (.Pred n args) =>
    match renderStep fuel locked σ (.l args) with
    | .ok s => .ok (n.name ++ "(" ++ s ++ ")")
    | e => e
  | fuel+1, locked, σ, .t (.list l) => renderStep fuel locked σ (.l l)
  | _+1, _, _, .l [] => .ok ""
  | fuel+1, locked, σ, .l (x :: xs) =>
    match renderStep fuel locked σ (.t x) with
    | .ok s =>
      match xs with
      | [] => .ok s
      | _ =>
        match renderStep fuel locked σ (.l xs) with
        | .ok s' => .ok (s ++ ", " ++ s')
        | e => e
    | e => e

/-- A `debug_println!` with one rendered argument: when the debug flag is
off the macro does not evaluate its arguments at all. -/
def gate1 (dbg : Bool) (x : ROut) : ROut :=
  if dbg then (match x with | .ok _ => .ok "" | e => e) else .ok ""

/-- A `debug_println!` with two rendered arguments (evaluated in order). -/
def gate2 (dbg : Bool) (x y : ROut) : ROut :=
  if dbg then
    (match x with
     | .ok _ => (match y with | .ok _ => .ok "" | e => e)
     | e => e)
  else .ok ""

/-- Outcome of running a piece of engine code: divergence, a `RefCell`
borrow panic, or a normal return with the resulting state. -/
inductive Outcome (α : Type) where
  | div : Outcome α
  | panic : Outcome α
  | ret : Except String α → State → Outcome α

/-- `Variable::compress` (src/types.rs).  The `borrow_mut()` guard taken at
entry is held across the recursive `v.compress()` call and across the
nested `v.assignment.borrow_mut()`, hence the cell is pushed onto `locked`
for those accesses; this is what panics on self- or cyclic variable
chains. -/
def Variable.compress : Nat → List Nat → Variable → State → Outcome Unit
  | 0, _, _, _ => .div
  | fuel+1, locked, v, σ =>
    if v.cell ∈ locked then .panic
    else
      match σ.read v.cell with
      | none => .ret (.ok ()) σ
      | some (.Var w) =>
        match Variable.compress fuel (v.cell :: locked) w σ with
        | .ret _ σ₁ =>
          if w.cell ∈ v.cell :: locked then .panic
          else
            match σ₁.read w.cell with
            | none => .ret (.ok ()) σ₁
            | some s => .ret (.ok ()) (σ₁.write v.cell s)
        | o => o
      | some _ => .ret (.ok ()) σ

/-- Requests for the unification family: `Term::unify` (`.t`),
`Predicate::unify` (`.p`), its argument loop (`.pl`), `List::unify` (`.l`),
and `Variable::assign` (`.av`). -/
inductive UReq where
  | t : Term → Term → UReq
  | p : Predicate → Predicate → UReq
  | pl : List Term → List Term → UReq
  | l : List Term → List Term → UReq
  | av : Variable → Term → UReq

/-- The unification family (src/types.rs), fuelled.  `locked` holds the
cells whose `RefCell` guard is live in some enclosing frame:
`Variable::assign` holds its own cell's guard across the recursive
`other.unify(term)` call in its `Some` branch. -/
def unifyStep (dbg : Bool) (rfuel : Nat) : Nat → List Nat → UReq → State → Outcome Unit
  | 0, _, _, _ => .div
  | fuel+1, locked, .t a b, σ =>
    match gate2 dbg (renderStep rfuel locked σ (.t a)) (renderStep rfuel locked σ (.t b)) with
    | .ok _ =>
      match a, b with
      | .Var v, o => unifyStep dbg rfuel fuel locked (.av v o) σ
      | this, .Var v => unifyStep dbg rfuel fuel locked (.av v this) σ
      | .Pred n x, .Pred m y => unifyStep dbg rfuel fuel locked (.p ⟨n, x⟩ ⟨m, y⟩) σ
      | .list x, .list y => unifyStep dbg rfuel fuel locked (.l x y) σ
      | _, _ => .ret (.error "Term type doesn't match") σ
    | .panic => .panic
    | .div => .div
  | fuel+1, locked, .p a b, σ =>
    match gate2 dbg (renderStep rfuel locked σ (.t (.Pred a.name a.arguments)))
        (renderStep rfuel locked σ (.t (.Pred b.name b.arguments))) with
    | .ok _ =>
      if a.name = b.name then unifyStep dbg rfuel fuel locked (.pl a.arguments b.arguments) σ
      else .ret (.error "Predicate name mismatch") σ
    | .panic => .panic
    | .div => .div
  | fuel+1, locked, .pl x y, σ =>
    match x, y with
    | [], [] => .ret (.ok ()) σ
    | h :: t, h' :: t' =>
      match unifyStep dbg rfuel fuel locked (.t h h') σ with
      | .ret (.ok ()) σ' => unifyStep dbg rfuel fuel locked (.pl t t') σ'
      | .ret (.error _) σ' => .ret (.error "Failed to unify an element in a list") σ'
      | o => o
    | _, _ => .ret (.error "List size doesn't match") σ
  | fuel+1, locked, .l x y, σ =>
    match gate2 dbg (renderStep rfuel locked σ (.t (.list x)))
        (renderStep rfuel locked σ (.t (.list y))) with
    | .ok _ =>
      match x, y with
      | [], [] => .ret (.ok ()) σ
      | h :: t, h' :: t' =>
        match unifyStep dbg rfuel fuel locked (.t h h') σ with
        | .ret (.ok ()) σ' => unifyStep dbg rfuel fuel locked (.l t t') σ'
        | o => o
      | _, _ => .ret (.error "List size doesn't match") σ
    | .panic => .panic
    | .div => .div
  | fuel+1, locked, .av v t, σ =>
    if v.cell ∈ locked then .panic
    else
      match σ.read v.cell with
      | none =>
        let σ₁ := σ.write v.cell t
        match Variable.compress fuel locked v σ₁ with
        | .ret _ σ₂ =>
          match gate2 dbg (renderStep rfuel locked σ₂ (.t (.Var v)))
              (match σ₂.read v.cell with
               | some c => renderStep rfuel locked σ₂ (.t c)
               | none => .panic) with
          | .ok _ => .ret (.ok ()) σ₂
          | .panic => .panic
          | .div => .div
        | o => o
      | some other =>
        match unifyStep dbg rfuel fuel (v.cell :: locked) (.t other t) σ with
        | .ret (.ok ()) σ₁ =>
          match Variable.compress fuel locked v σ₁ with
          | .ret _ σ₂ =>
            match gate2 dbg (renderStep rfuel locked σ₂ (.t (.Var v)))
                (match σ₂.read v.cell with
                 | some c => renderStep rfuel locked σ₂ (.t c)
                 | none => .panic) with
            | .ok _ => .ret (.ok ()) σ₂
            | .panic => .panic
            | .div => .div
          | o => o
        | .ret (.error e) σ₁ => .ret (.error e) σ₁
        | o => o

/-- `Term::unify` (src/types.rs). -/
def Term.unify (fuel : Nat) (dbg : Bool) (rfuel : Nat) (locked : List Nat)
    (a b : Term) (σ : State) : Outcome Unit :=
  unifyStep dbg rfuel fuel locked (.t a b) σ

/-- `Variable::assign` (src/types.rs). -/
def Variable.assign (fuel : Nat) (dbg : Bool) (rfuel : Nat) (locked : List Nat)
    (v : Variable) (t : Term) (σ : State) : Outcome Unit :=
  unifyStep dbg rfuel fuel locked (.av v t) σ

/-- `List::unify` (src/types.rs). -/
def listUnify (fuel : Nat) (dbg : Bool) (rfuel : Nat) (locked : List Nat)
    (a b : List Term) (σ : State) : Outcome Unit :=
  unifyStep dbg rfuel fuel locked (.l a b) σ

/-- Requests for the derivation family: `Predicate::derive` (`.p`), its
candidate loop (`.loop`), `Term::derive` (`.t`), `List::derive` (`.conj`),
and the final `for v in vs { v.compress() }` loop (`.compAll`). -/
inductive DReq where
  | p : Predicate → DReq
  | lp : Predicate → List Clause → DReq
  | t : Term → DReq
  | conj : List Term → DReq
  | compAll : List Variable → DReq

/-- The derivation family (src/types.rs), fuelled.  `derive` is never
called with a live `RefCell` guard, so the `locked` list is `[]`
throughout.  Candidate clauses are instantiated lazily, one per loop
iteration, exactly like `knowledge.iter().map(...)`; there is no undo of
bindings written by a failed candidate (the source has none). -/
def deriveStep (dbg : Bool) (rfuel : Nat) (kb : List Clause) :
    Nat → DReq → State → Outcome (List Variable)
  | 0, _, _ => .div
  | fuel+1, .p p, σ =>
    match gate1 dbg (renderStep rfuel [] σ (.t (.Pred p.name p.arguments))) with
    | .ok _ => deriveStep dbg rfuel kb fuel (.lp p kb) σ.shift
    | .panic => .panic
    | .div => .div
  | _+1, .lp _ [], σ => .ret (.error "No matching facts") σ.unshift
  | fuel+1, .lp p (c :: rest), σ =>
    match instStep fuel (.c c) [] σ with
    | none => .div
    | some (.c fact, _, σ₁) =>
      match unifyStep dbg rfuel fuel [] (.p p fact.result) σ₁ with
      | .ret (.ok ()) σ₂ =>
        match deriveStep dbg rfuel kb fuel (.conj fact.conditions) σ₂ with
        | .ret (.ok _) σ₃ =>
          match varsStep fuel (.l p.arguments) with
          | none => .div
          | some vs =>
            match deriveStep dbg rfuel kb fuel (.compAll vs) σ₃.unshift with
            | .ret _ σ₅ => .ret (.ok vs) σ₅
            | o => o
        | .ret (.error _) σ₃ => deriveStep dbg rfuel kb fuel (.lp p rest) σ₃
        | o => o
      | .ret (.error _) σ₂ => deriveStep dbg rfuel kb fuel (.lp p rest) σ₂
      | .div => .div
      | .panic => .panic
    | some _ => .div
  | fuel+1, .t x, σ =>
    match x with
    | .Var v => .ret (.ok [v]) σ
    | .Pred n args => deriveStep dbg rfuel kb fuel (.p ⟨n, args⟩) σ
    | .list l => deriveStep dbg rfuel kb fuel (.conj l) σ
  | _+1, .conj [], σ => .ret (.ok []) σ
  | fuel+1, .conj (h :: t), σ =>
    match deriveStep dbg rfuel kb fuel (.t h) σ with
    | .ret (.ok vs) σ₁ =>
      match deriveStep dbg rfuel kb fuel (.conj t) σ₁ with
      | .ret (.ok vs') σ₂ => .ret (.ok (unionNI vs vs')) σ₂
      | o => o
    | o => o
  | _+1, .compAll [], σ => .ret (.ok []) σ
  | fuel+1, .compAll (v :: vs), σ =>
    match Variable.compress fuel [] v σ with
    | .ret _ σ₁ => deriveStep dbg rfuel kb fuel (.compAll vs) σ₁
    | .div => .div
    | .panic => .panic

/-- `Predicate::derive` (src/types.rs). -/
def Predicate.derive (fuel : Nat) (dbg : Bool) (rfuel : Nat)
    (p : Predicate) (kb : List Clause) (σ : State) : Outcome (List Variable) :=
  deriveStep dbg rfuel kb fuel (.p p) σ

/-- `Term::derive` (src/types.rs). -/
def Term.derive (fuel : Nat) (dbg : Bool) (rfuel : Nat)
    (t : Term) (kb : List Clause) (σ : State) : Outcome (List Variable) :=
  deriveStep dbg rfuel kb fuel (.t t) σ

/-- `List::derive` (src/types.rs): the conjunction of the elements. -/
def listDerive (fuel : Nat) (dbg : Bool) (rfuel : Nat)
    (l : List Term) (kb : List Clause) (σ : State) : Outcome (List Variable) :=
  deriveStep dbg rfuel kb fuel (.conj l) σ

/-! ## Specification-side notions -/

/-- Sequence a list of optional values. -/
def optList {α : Type} : List (Option α) → Option (List α)
  | [] => some []
  | x :: xs => x.bind fun a => (optList xs).map fun l => a :: l

/-- The spec's `walk`, applied structurally ("dereferencing every Variable
through its binding cell"): fully resolve a term under a store.  Fuelled,
because the engine can create cyclic cell graphs (no occurs check), on
which walking diverges. -/
def resolveT : Nat → State → Term → Option Term
  | 0, _, _ => none
  | fuel+1, σ, .Var v =>
    match σ.read v.cell with
    | none => some (.Var v)
    | some t => resolveT fuel σ t
  | fuel+1, σ, .Pred n args =>
    (optList (args.map (resolveT fuel σ))).map fun l => .Pred n l
  | fuel+1, σ, .list l =>
    (optList (l.map (resolveT fuel σ))).map fun l' => .list l'

/-- Partial walking equality under a store: whenever both terms can be
fully walked, the results are structurally identical. -/
def veq (σ : State) (t u : Term) : Prop :=
  ∀ m n a b, resolveT m σ t = some a → resolveT n σ u = some b → a = b

/-- A `Variable` occurrence (by value) inside a `Term`. -/
inductive OccursIn (v : Variable) : Term → Prop where
  | var : OccursIn v (.Var v)
  | pred {n : Atom} {args : List Term} {t : Term} :
      t ∈ args → OccursIn v t → OccursIn v (.Pred n args)
  | list {l : List Term} {t : Term} :
      t ∈ l → OccursIn v t → OccursIn v (.list l)

/-- A `Variable` occurrence inside a `Clause` (head arguments or body). -/
def OccursInClause (v : Variable) (c : Clause) : Prop :=
  (∃ t ∈ c.result.arguments, OccursIn v t) ∨ (∃ t ∈ c.conditions, OccursIn v t)

/-! ## First-match-wins, from the spec's words (§4.3)

`tryCandidate` is written from the spec's pseudo-code for one candidate
clause: rename apart, unify the goal with the renamed head, derive the
renamed body, and on success collect and compress the goal's variables;
a failure reports the state the failed attempt left behind (the source
performs no undo).  `firstMatch` is "clauses are tried in insertion order,
first match wins, otherwise Err". -/

inductive TryRes where
  | failed : State → TryRes
  | succeeded : List Variable → State → TryRes
  | other : Outcome (List Variable) → TryRes

def tryCandidate (dbg : Bool) (rfuel : Nat) (kb : List Clause) (fuel : Nat)
    (p : Predicate) (c : Clause) (σ : State) : TryRes :=
  match instStep fuel (.c c) [] σ with
  | none => .other .div
  | some (.c fact, _, σ₁) =>
    match unifyStep dbg rfuel fuel [] (.p p fact.result) σ₁ with
    | .ret (.ok ()) σ₂ =>
      match deriveStep dbg rfuel kb fuel (.conj fact.conditions) σ₂ with
      | .ret (.ok _) σ₃ =>
        match varsStep fuel (.l p.arguments) with
        | none => .other .div
        | some vs =>
          match deriveStep dbg rfuel kb fuel (.compAll vs) σ₃.unshift with
          | .ret _ σ₅ => .succeeded vs σ₅
          | o => .other o
      | .ret (.error _) σ₃ => .failed σ₃
      | o => .other o
    | .ret (.error _) σ₂ => .failed σ₂
    | .div => .other .div
    | .panic => .other .panic
  | some _ => .other .div

def firstMatch (dbg : Bool) (rfuel : Nat) (kb : List Clause) :
    Nat → Predicate → List Clause → State → Outcome (List Variable)
  | 0, _, _, _ => .div
  | _+1, _, [], σ => .ret (.error "No matching facts") σ.unshift
  | fuel+1, p, c :: rest, σ =>
    match tryCandidate dbg rfuel kb fuel p c σ with
    | .failed σ' => firstMatch dbg rfuel kb fuel p rest σ'
    | .succeeded vs σ' => .ret (.ok vs) σ'
    | .other o => o

/-! ## The parser (src/parser.rs)

`src/parser.rs` is a different snapshot of the crate than `src/types.rs`:
there `Variable::new` takes only a name and `Term` has a `Clause` variant.
The parser is therefore embedded against its own data model (`PTerm`),
with `Pred` carrying the `Predicate` fields and `Clause` carrying the head
predicate's fields plus the conditions list. -/

namespace Parser

inductive PTerm where
  | Pred : String → List PTerm → PTerm
  | Var : String → PTerm
  | Clause : String → List PTerm → List PTerm → PTerm

/-- `Command` (src/parser.rs). -/
inductive Command where
  | Assertion : PTerm → Command
  | Question : PTerm → Command

/-- `identifier_character` (src/parser.rs). -/
def identifierCharacter (c : Char) : Bool :=
  c.isAlpha || c.isDigit || c == '_' || c == '-'

/-- `consume_spaces` (src/parser.rs). -/
def consumeSpaces : List Char → List Char
  | [] => []
  | c :: rest => if c.isWhitespace then consumeSpaces rest else c :: rest

def identAux : List Char → List Char × List Char
  | [] => ([], [])
  | c :: rest =>
    if identifierCharacter c then
      let (tk, rest') := identAux rest
      (c :: tk, rest')
    else ([], c :: rest)

/-- `identifier` (src/parser.rs): skip spaces, take identifier characters. -/
def identifier (input : List Char) : String × List Char :=
  let i := consumeSpaces input
  let (tk, rest) := identAux i
  (String.mk tk, rest)

/-- Requests for the recursive-descent family (src/parser.rs). -/
inductive PReq where
  | term : PReq
  | pred : PReq
  | args : Char → PReq
  | argsImpl : Char → PReq
  | clause : PReq
  | line : PReq

/-- Results for the recursive-descent family. -/
inductive PRes where
  | t : PTerm → PRes
  | p : String → List PTerm → PRes
  | l : List PTerm → PRes
  | cmd : Command → PRes

/-- The recursive-descent family (src/parser.rs): `term`, `predicate`,
`arguments`, `arguments_impl`, `clause`, `parse_line`; `ParseError = ()`.
Fuelled (`none` = out of fuel; the Rust parser always terminates). -/
def pstep : Nat → PReq → List Char → Option (Except Unit (PRes × List Char))
  | 0, _, _ => none
  | fuel+1, .term, input =>
    match consumeSpaces input with
    | [] => some (.error ())
    | c :: rest =>
      if c.isLower then
        match pstep fuel .pred (c :: rest) with
        | some (.ok (.p n args, rest')) => some (.ok (.t (.Pred n args), rest'))
        | some _ => some (.error ())
        | none => none
      else if c.isUpper then
        let (nm, rest') := identifier (c :: rest)
        some (.ok (.t (.Var nm), rest'))
      else some (.error ())
  | fuel+1, .pred, input =>
    let (nm, rest) := identifier input
    match consumeSpaces rest with
    | '(' :: rest' =>
      match pstep fuel (.args ')') rest' with
      | some (.ok (.l args, rest'')) => some (.ok (.p nm args, rest''))
      | some _ => some (.error ())
      | none => none
    | other => some (.ok (.p nm [], other))
  | fuel+1, .args endc, input =>
    match consumeSpaces input with
    | [] => some (.error ())
    | c :: rest =>
      match pstep fuel .term (c :: rest) with
      | some (.ok (.t first, rest')) =>
        match pstep fuel (.argsImpl endc) rest' with
        | some (.ok (.l rest2, rest'')) => some (.ok (.l (first :: rest2), rest''))
        | some _ => some (.error ())
        | none => none
      | some _ => some (.error ())
      | none => none
  | fuel+1, .argsImpl endc, input =>
    match consumeSpaces input with
    | [] => some (.error ())
    | c :: rest =>
      if c == endc then some (.ok (.l [], rest))
      else if c == ',' then
        match pstep fuel .term rest with
        | some (.ok (.t arg, rest')) =>
          match pstep fuel (.argsImpl endc) rest' with
          | some (.ok (.l args, rest'')) => some (.ok (.l (arg :: args), rest''))
          | some _ => some (.error ())
          | none => none
        | some _ => some (.error ())
        | none => none
      else some (.error ())
  | fuel+1, .clause, input =>
    match pstep fuel .pred input with
    | some (.ok (.p n args, rest)) =>
      match consumeSpaces rest with
      | '.' :: rest' => some (.ok (.t (.Pred n args), '.' :: rest'))
      | ':' :: rest' =>
        match rest' with
        | '-' :: rest'' =>
          match pstep fuel (.args '.') rest'' with
          | some (.ok (.l conds, rest3)) => some (.ok (.t (.Clause n args conds), rest3))
          | some _ => some (.error ())
          | none => none
        | _ => some (.error ())
      | _ => some (.error ())
    | some _ => some (.error ())
    | none => none
  | fuel+1, .line, input =>
    match consumeSpaces input with
    | [] => some (.error ())
    | '?' :: rest =>
      match rest with
      | '-' :: rest' =>
        match pstep fuel .term rest' with
        | some (.ok (.t q, rest'')) =>
          match consumeSpaces rest'' with
          | '.' :: rest3 => some (.ok (.cmd (.Question q), rest3))
          | _ => some (.error ())
        | some _ => some (.error ())
        | none => none
      | _ => some (.error ())
    | c :: rest =>
      match pstep fuel .clause (c :: rest) with
      | some (.ok (.t t, rest')) => some (.ok (.cmd (.Assertion t), rest'))
      | some _ => some (.error ())
      | none => none

/-- `parse_line` (src/parser.rs). -/
def parse_line (fuel : Nat) (input : List Char) :
    Option (Except Unit (Command × List Char)) :=
  match pstep fuel .line input with
  | some (.ok (.cmd c, rest)) => some (.ok (c, rest))
  | some _ => some (.error ())
  | none => none

end Parser

end Prolog


namespace Prolog

/-! ## Basic store lemmas -/

theorem getD_append_none (l : List (Option Term)) (c : Nat) :
    (l ++ [none]).getD c none = l.getD c none := by
  induction l generalizing c with
  | nil => cases c <;> rfl
  | cons a t ih =>
    cases c with
    | zero => rfl
    | succ n => exact ih n

/-- Allocating a fresh cell does not change any read. -/
theorem read_brand_new (σ : State) (nm : String) (c : Nat) :
    (Variable.brand_new nm σ).2.read c = σ.read c := by
  simp only [Variable.brand_new, State.read]
  exact getD_append_none σ.cells c

theorem sameNI_refl (v : Variable) : v.sameNI v = true := by
  simp [Variable.sameNI]

/-- `Variable::instantiate` on an unbound variable with an empty dict. -/
theorem instantiate_unbound_empty (v : Variable) (σ : State)
    (h : σ.read v.cell = none) :
    v.instantiate [] σ =
      (⟨v.name, σ.nextId, σ.cells.length⟩,
        [(v, ⟨v.name, σ.nextId, σ.cells.length⟩)],
        ⟨σ.nextId + 1, σ.cells ++ [none], σ.level⟩) := by
  unfold Variable.instantiate
  rw [h]
  rfl

/-- `Variable::instantiate` on an unbound variable with a dict hit. -/
theorem instantiate_hit (v w : Variable) (d : Dict) (σ : State)
    (h : σ.read v.cell = none) (h2 : Dict.lookupNI d v = some w) :
    v.instantiate d σ = (w, d, σ) := by
  unfold Variable.instantiate
  rw [h, h2]

/-- `Variable::instantiate` on an unbound variable with a dict miss. -/
theorem instantiate_miss (v : Variable) (d : Dict) (σ : State)
    (h : σ.read v.cell = none) (h2 : Dict.lookupNI d v = none) :
    v.instantiate d σ =
      (⟨v.name, σ.nextId, σ.cells.length⟩,
        (v, ⟨v.name, σ.nextId, σ.cells.length⟩) :: d,
        ⟨σ.nextId + 1, σ.cells ++ [none], σ.level⟩) := by
  unfold Variable.instantiate
  rw [h, h2]
  rfl

/-! ## C10: `instantiate` on an assigned variable -/

/-- C10: if a Variable's binding cell already contains `Some` term when
`instantiate` is applied, `instantiate` returns that same Variable
unchanged (same name, same id, same cell), without touching the dict or
allocating anything; only unbound Variables are renamed. -/
theorem claim10_instantiate_bound_variable_unchanged
    (v : Variable) (dict : Dict) (σ : State) (t : Term)
    (h : σ.read v.cell = some t) :
    v.instantiate dict σ = (v, dict, σ) := by
  unfold Variable.instantiate
  rw [h]

theorem claim10_witness :
    Variable.instantiate ⟨"X", 1, 0⟩ [] ⟨2, [some (.Pred ⟨"a"⟩ [])], 0⟩ =
      (⟨"X", 1, 0⟩, [], ⟨2, [some (.Pred ⟨"a"⟩ [])], 0⟩) :=
  claim10_instantiate_bound_variable_unchanged ⟨"X", 1, 0⟩ [] _ (.Pred ⟨"a"⟩ []) rfl

/-! ## C5: renaming preserves internal sharing -/

/-- C5: instantiating `p(X, X)` with a single threaded dict maps both
occurrences of the unbound Variable `X` to the same fresh Variable `X'`
(same fresh id from the counter, same name), so internal sharing is
preserved; the fresh variable differs from the original whenever the
original's id is below the counter. -/
theorem claim5_instantiate_preserves_sharing
    (nm : Atom) (v : Variable) (σ : State) (h : σ.read v.cell = none) :
    ∃ w : Variable,
      instStep 4 (.p ⟨nm, [.Var v, .Var v]⟩) [] σ =
        some (.p ⟨nm, [.Var w, .Var w]⟩, [(v, w)],
          ⟨σ.nextId + 1, σ.cells ++ [none], σ.level⟩) ∧
      w.name = v.name ∧ w.id = σ.nextId ∧
      (v.id < σ.nextId → w.sameNI v = false) := by
  refine ⟨⟨v.name, σ.nextId, σ.cells.length⟩, ?_, rfl, rfl, ?_⟩
  · have e1 := instantiate_unbound_empty v σ h
    have hσ₁ : State.read ⟨σ.nextId + 1, σ.cells ++ [none], σ.level⟩ v.cell = none := by
      show (σ.cells ++ [none]).getD v.cell none = none
      rw [getD_append_none]; exact h
    have e2 : v.instantiate [(v, ⟨v.name, σ.nextId, σ.cells.length⟩)]
        ⟨σ.nextId + 1, σ.cells ++ [none], σ.level⟩ =
        (⟨v.name, σ.nextId, σ.cells.length⟩,
          [(v, ⟨v.name, σ.nextId, σ.cells.length⟩)],
          ⟨σ.nextId + 1, σ.cells ++ [none], σ.level⟩) := by
      refine instantiate_hit v _ _ _ hσ₁ ?_
      simp [Dict.lookupNI, sameNI_refl]
    simp [instStep, e1, e2]
  · intro hlt
    simp [Variable.sameNI, Nat.ne_of_gt hlt]

theorem claim5_witness :
    ∃ w : Variable,
      instStep 4 (.p ⟨⟨"p"⟩, [.Var ⟨"X", 1, 0⟩, .Var ⟨"X", 1, 0⟩]⟩) [] ⟨2, [none], 0⟩ =
        some (.p ⟨⟨"p"⟩, [.Var w, .Var w]⟩, [(⟨"X", 1, 0⟩, w)], ⟨3, [none, none], 0⟩) ∧
      w.name = "X" ∧ w.id = 2 ∧ (1 < 2 → w.sameNI ⟨"X", 1, 0⟩ = false) :=
  claim5_instantiate_preserves_sharing ⟨"p"⟩ ⟨"X", 1, 0⟩ ⟨2, [none], 0⟩ rfl

/-! ## C4: unifying a variable with itself -/

/-- C4 (violation witness): `Term::unify` has no same-variable case; unifying
an unbound Variable with itself (the same `(name, id)` and the same shared
cell, as produced by cloning) first writes a self-referential binding and
then panics with a `RefCell` double mutable borrow inside `compress`,
instead of succeeding without writing a binding. -/
theorem claim4_unify_same_variable_panics :
    Term.unify 10 false 0 [] (.Var ⟨"X", 1, 0⟩) (.Var ⟨"X", 1, 0⟩) ⟨2, [none], 0⟩ =
      .panic := rfl

/-! ## C1: bindings written by a failed candidate are not undone -/

/-- C1 (violation witness): deriving `p(X)` against the knowledge base
`p(a) :- q.  p(b).` (no clause for `q`).  The first candidate unifies the
head, binding `X ↦ a`, and its body then fails; the binding is not undone,
so the second candidate `p(b)` no longer matches and the whole derivation
returns `Err` with `X` still bound to `a` — the pre-call binding state
(`X` unbound) is not restored. -/
theorem claim1_failed_candidate_bindings_persist :
    Predicate.derive 20 false 0 ⟨⟨"p"⟩, [.Var ⟨"X", 1, 0⟩]⟩
        [⟨⟨⟨"p"⟩, [.Pred ⟨"a"⟩ []]⟩, [.Pred ⟨"q"⟩ []]⟩, ⟨⟨⟨"p"⟩, [.Pred ⟨"b"⟩ []]⟩, []⟩]
        ⟨2, [none], 0⟩ =
      .ret (.error "No matching facts") ⟨2, [some (.Pred ⟨"a"⟩ [])], 0⟩ ∧
    State.read ⟨2, [none], 0⟩ 0 = none :=
  ⟨rfl, rfl⟩

end Prolog

namespace Prolog.Parser

/-! ## C8: a body-less assertion parses to a bare `Pred`, not a `Clause` -/

/-- Does a parse result deliver an `Assertion` of a `Clause` value with an
empty conditions list (what the claim asserts for body-less clauses)? -/
def producesEmptyClause : Option (Except Unit (Command × List Char)) → Bool
  | some (.ok (.Assertion (.Clause _ _ []), _)) => true
  | _ => false

/-- C8 (counterexample): parsing the assertion line `foo.` succeeds, but
produces `Assertion (Pred "foo" [])` — the bare head predicate term, not a
`Clause` value with an empty conditions List. -/
theorem claim8_counterexample_bare_assertion_not_clause :
    parse_line 20 ("foo.".data) =
        some (.ok (.Assertion (.Pred "foo" []), ['.'])) ∧
      producesEmptyClause (parse_line 20 ("foo.".data)) = false :=
  ⟨rfl, rfl⟩

/-- C8 (amended): when the parsed clause has no `:-` body (the character
after the head predicate is `.`), the `clause` parser returns the bare head
`Pred` term unchanged; a `Clause` value is produced only when a `:-` body
is present. -/
theorem claim8_bodyless_clause_parses_to_pred
    (fuel : Nat) (input rest rest' : List Char) (n : String) (args : List PTerm)
    (h1 : pstep fuel .pred input = some (.ok (.p n args, rest)))
    (h2 : consumeSpaces rest = '.' :: rest') :
    pstep (fuel + 1) .clause input = some (.ok (.t (.Pred n args), '.' :: rest')) := by
  simp [pstep, h1, h2]

theorem claim8_witness :
    pstep 20 .clause ("foo.".data) =
      some (.ok (.t (.Pred "foo" []), ['.'])) :=
  claim8_bodyless_clause_parses_to_pred 19 ("foo.".data) ['.'] [] "foo" [] rfl rfl

end Prolog.Parser

namespace Prolog

/-! ## C3: clause order and conjunct order -/

theorem gate1_false (x : ROut) : gate1 false x = .ok "" := rfl

theorem gate2_false (x y : ROut) : gate2 false x y = .ok "" := rfl

/-- The candidate loop of `Predicate::derive` is first-match-wins over
`tryCandidate`, in list (= insertion) order. -/
theorem derive_loop_eq_firstMatch (dbg : Bool) (rfuel : Nat) (kb : List Clause) :
    ∀ fuel p cs σ,
      deriveStep dbg rfuel kb fuel (.lp p cs) σ = firstMatch dbg rfuel kb fuel p cs σ := by
  intro fuel
  induction fuel with
  | zero => intro p cs σ; rfl
  | succ fuel ih =>
    intro p cs σ
    cases cs with
    | nil => rfl
    | cons c rest =>
      cases hinst : instStep fuel (.c c) [] σ with
      | none => simp [deriveStep, firstMatch, tryCandidate, hinst]
      | some res =>
        obtain ⟨r, d, σ₁⟩ := res
        cases r with
        | t _ => simp [deriveStep, firstMatch, tryCandidate, hinst]
        | l _ => simp [deriveStep, firstMatch, tryCandidate, hinst]
        | p _ => simp [deriveStep, firstMatch, tryCandidate, hinst]
        | c fact =>
          cases hu : unifyStep dbg rfuel fuel [] (.p p fact.result) σ₁ with
          | div => simp [deriveStep, firstMatch, tryCandidate, hinst, hu]
          | panic => simp [deriveStep, firstMatch, tryCandidate, hinst, hu]
          | ret e σ₂ =>
            cases e with
            | error err => simp [deriveStep, firstMatch, tryCandidate, hinst, hu, ih]
            | ok u =>
              cases u
              cases hd : deriveStep dbg rfuel kb fuel (.conj fact.conditions) σ₂ with
              | div => simp [deriveStep, firstMatch, tryCandidate, hinst, hu, hd]
              | panic => simp [deriveStep, firstMatch, tryCandidate, hinst, hu, hd]
              | ret e2 σ₃ =>
                cases e2 with
                | error err => simp [deriveStep, firstMatch, tryCandidate, hinst, hu, hd, ih]
                | ok vs2 =>
                  cases hv : varsStep fuel (.l p.arguments) with
                  | none => simp [deriveStep, firstMatch, tryCandidate, hinst, hu, hd, hv]
                  | some vs =>
                    cases hc : deriveStep dbg rfuel kb fuel (.compAll vs) σ₃.unshift with
                    | div =>
                      simp [deriveStep, firstMatch, tryCandidate, hinst, hu, hd, hv, hc]
                    | panic =>
                      simp [deriveStep, firstMatch, tryCandidate, hinst, hu, hd, hv, hc]
                    | ret e3 σ₅ =>
                      simp [deriveStep, firstMatch, tryCandidate, hinst, hu, hd, hv, hc]

/-- C3: with tracing off, Pred-goal derivation tries knowledge-base clauses
in insertion order, returning at the first candidate whose renamed head
unifies and whose renamed body derives (`firstMatch`/`tryCandidate`, built
from the spec's words), and returns `Err "No matching facts"` when no
candidate succeeds; body conjuncts are derived left-to-right under the
bindings left by the previous conjuncts. -/
theorem claim3_first_match_insertion_order :
    (∀ fuel p kb σ, Predicate.derive (fuel + 1) false 0 p kb σ =
        firstMatch false 0 kb fuel p kb σ.shift)
  ∧ (∀ fuel cs p kb σ, deriveStep false 0 kb fuel (.lp p cs) σ =
        firstMatch false 0 kb fuel p cs σ)
  ∧ (∀ fuel h t kb σ, listDerive (fuel + 1) false 0 (h :: t) kb σ =
      match Term.derive fuel false 0 h kb σ with
      | .ret (.ok vs) σ₁ =>
        (match listDerive fuel false 0 t kb σ₁ with
         | .ret (.ok vs') σ₂ => .ret (.ok (unionNI vs vs')) σ₂
         | o => o)
      | o => o) := by
  refine ⟨?_, ?_, ?_⟩
  · intro fuel p kb σ
    show deriveStep false 0 kb (fuel + 1) (.p p) σ = _
    simp only [deriveStep, gate1_false]
    exact derive_loop_eq_firstMatch false 0 kb fuel p kb σ.shift
  · intro fuel cs p kb σ
    exact derive_loop_eq_firstMatch false 0 kb fuel p cs σ
  · intro fuel h t kb σ
    rfl

end Prolog

namespace Prolog

/-! ## C6: renaming apart is fresh -/

/-- A variable occurrence in an `instantiate` request. -/
def OccursInReq (v : Variable) : IReq → Prop
  | .t x => OccursIn v x
  | .l l => ∃ t ∈ l, OccursIn v t
  | .p pr => ∃ t ∈ pr.arguments, OccursIn v t
  | .c cl => OccursInClause v cl

/-- A variable occurrence in an `instantiate` result. -/
def OccursInRes (v : Variable) : IRes → Prop
  | .t x => OccursIn v x
  | .l l => ∃ t ∈ l, OccursIn v t
  | .p pr => ∃ t ∈ pr.arguments, OccursIn v t
  | .c cl => OccursInClause v cl

theorem occursIn_var_inv {u v : Variable} (h : OccursIn u (.Var v)) : u = v := by
  cases h; rfl

theorem occursIn_pred_inv {u : Variable} {n : Atom} {args : List Term}
    (h : OccursIn u (.Pred n args)) : ∃ t ∈ args, OccursIn u t := by
  cases h with
  | pred hmem hocc => exact ⟨_, hmem, hocc⟩

theorem occursIn_list_inv {u : Variable} {l : List Term}
    (h : OccursIn u (.list l)) : ∃ t ∈ l, OccursIn u t := by
  cases h with
  | list hmem hocc => exact ⟨_, hmem, hocc⟩

theorem lookupNI_mem : ∀ (d : Dict) (v w : Variable),
    Dict.lookupNI d v = some w → ∃ k, (k, w) ∈ d := by
  intro d
  induction d with
  | nil => intro v w h; exact absurd h (by simp [Dict.lookupNI])
  | cons p rest ih =>
    intro v w h
    obtain ⟨k, w'⟩ := p
    by_cases hk : k.sameNI v = true
    · simp [Dict.lookupNI, hk] at h
      exact ⟨k, by simp [h]⟩
    · simp [Dict.lookupNI, hk] at h
      obtain ⟨k', hk'⟩ := ih v w h
      exact ⟨k', by simp [hk']⟩

/-- Freshness of `instantiate`: starting from a dict whose range ids are
all `≥ N`, with `N ≤ nextId`, and a request whose variables are all unbound
with ids `< N`, every variable of the result has id `≥ N`, the counter only
grows, the new dict range still has ids `≥ N`, and no cell read changes
(instantiate only allocates fresh cells). -/
theorem instStep_fresh (N : Nat) :
    ∀ (fuel : Nat) (req : IReq) (d : Dict) (σ : State) (res : IRes) (d' : Dict) (σ' : State),
      instStep fuel req d σ = some (res, d', σ') →
      (∀ u, OccursInReq u req → σ.read u.cell = none ∧ u.id < N) →
      (∀ pr ∈ d, N ≤ (Prod.snd pr).id) →
      N ≤ σ.nextId →
      σ.nextId ≤ σ'.nextId ∧
      (∀ pr ∈ d', N ≤ (Prod.snd pr).id) ∧
      (∀ u, OccursInRes u res → N ≤ u.id) ∧
      (∀ cc, σ'.read cc = σ.read cc) := by
  intro fuel
  induction fuel with
  | zero => intro req d σ res d' σ' h; exact absurd h (by simp [instStep])
  | succ fuel ih =>
    intro req d σ res d' σ' hrun hocc hd hN
    cases req with
    | t x =>
      cases x with
      | Var v =>
        have hv := hocc v OccursIn.var
        simp only [instStep] at hrun
        cases hlk : Dict.lookupNI d v with
        | some w =>
          rw [instantiate_hit v w d σ hv.1 hlk] at hrun
          dsimp only at hrun
          simp only [Option.some.injEq, Prod.mk.injEq] at hrun
          obtain ⟨h1, h2, h3⟩ := hrun
          subst h2; subst h3; subst h1
          refine ⟨le_refl _, hd, ?_, fun cc => rfl⟩
          intro u hu
          have hw := occursIn_var_inv (show OccursIn u (.Var w) from hu)
          rw [hw]
          obtain ⟨k, hk⟩ := lookupNI_mem d v w hlk
          exact hd (k, w) hk
        | none =>
          rw [instantiate_miss v d σ hv.1 hlk] at hrun
          dsimp only at hrun
          simp only [Option.some.injEq, Prod.mk.injEq] at hrun
          obtain ⟨h1, h2, h3⟩ := hrun
          subst h2; subst h3; subst h1
          refine ⟨Nat.le_succ _, ?_, ?_, ?_⟩
          · intro pr hpr
            rcases List.mem_cons.mp hpr with h | h
            · subst h; exact hN
            · exact hd pr h
          · intro u hu
            have hw := occursIn_var_inv
              (show OccursIn u (.Var ⟨v.name, σ.nextId, σ.cells.length⟩) from hu)
            rw [hw]
            exact hN
          · intro cc
            exact getD_append_none σ.cells cc
      | Pred n args =>
        simp only [instStep, Option.bind] at hrun
        cases hsub : instStep fuel (.l args) d σ with
        | none => rw [hsub] at hrun; dsimp only at hrun; exact Option.noConfusion hrun
        | some r =>
          rw [hsub] at hrun
          obtain ⟨r1, rd, rσ⟩ := r
          cases r1 with
          | t _ => dsimp only at hrun; exact Option.noConfusion hrun
          | p _ => dsimp only at hrun; exact Option.noConfusion hrun
          | c _ => dsimp only at hrun; exact Option.noConfusion hrun
          | l args' =>
            dsimp only at hrun
            simp only [Option.some.injEq, Prod.mk.injEq] at hrun
            obtain ⟨h1, h2, h3⟩ := hrun
            subst h2; subst h3
            have hsub' := ih (.l args) d σ (.l args') rd rσ hsub
              (fun u hu => hocc u (by
                obtain ⟨t, ht, hot⟩ := hu
                exact OccursIn.pred ht hot)) hd hN
            refine ⟨hsub'.1, hsub'.2.1, ?_, hsub'.2.2.2⟩
            intro u hu
            rw [← h1] at hu
            obtain ⟨t, ht, hot⟩ := occursIn_pred_inv (show OccursIn u (.Pred n args') from hu)
            exact hsub'.2.2.1 u ⟨t, ht, hot⟩
      | list l =>
        simp only [instStep, Option.bind] at hrun
        cases hsub : instStep fuel (.l l) d σ with
        | none => rw [hsub] at hrun; dsimp only at hrun; exact Option.noConfusion hrun
        | some r =>
          rw [hsub] at hrun
          obtain ⟨r1, rd, rσ⟩ := r
          cases r1 with
          | t _ => dsimp only at hrun; exact Option.noConfusion hrun
          | p _ => dsimp only at hrun; exact Option.noConfusion hrun
          | c _ => dsimp only at hrun; exact Option.noConfusion hrun
          | l l' =>
            dsimp only at hrun
            simp only [Option.some.injEq, Prod.mk.injEq] at hrun
            obtain ⟨h1, h2, h3⟩ := hrun
            subst h2; subst h3
            have hsub' := ih (.l l) d σ (.l l') rd rσ hsub
              (fun u hu => hocc u (by
                obtain ⟨t, ht, hot⟩ := hu
                exact OccursIn.list ht hot)) hd hN
            refine ⟨hsub'.1, hsub'.2.1, ?_, hsub'.2.2.2⟩
            intro u hu
            rw [← h1] at hu
            obtain ⟨t, ht, hot⟩ := occursIn_list_inv (show OccursIn u (.list l') from hu)
            exact hsub'.2.2.1 u ⟨t, ht, hot⟩
    | l ts =>
      cases ts with
      | nil =>
        simp only [instStep, Option.some.injEq, Prod.mk.injEq] at hrun
        obtain ⟨h1, h2, h3⟩ := hrun
        subst h2; subst h3
        refine ⟨le_refl _, hd, ?_, fun cc => rfl⟩
        intro u hu
        rw [← h1] at hu
        obtain ⟨t, ht, _⟩ := (show ∃ t ∈ ([] : List Term), OccursIn u t from hu)
        exact absurd ht (List.not_mem_nil t)
      | cons x xs =>
        simp only [instStep, Option.bind] at hrun
        cases hs1 : instStep fuel (.t x) d σ with
        | none => rw [hs1] at hrun; dsimp only at hrun; exact Option.noConfusion hrun
        | some r =>
          rw [hs1] at hrun
          obtain ⟨r1, d₁, σ₁⟩ := r
          cases r1 with
          | l _ => dsimp only at hrun; exact Option.noConfusion hrun
          | p _ => dsimp only at hrun; exact Option.noConfusion hrun
          | c _ => dsimp only at hrun; exact Option.noConfusion hrun
          | t x' =>
            dsimp only at hrun
            have ha := ih (.t x) d σ (.t x') d₁ σ₁ hs1
              (fun u hu => hocc u ⟨x, List.mem_cons_self x xs, hu⟩) hd hN
            cases hs2 : instStep fuel (.l xs) d₁ σ₁ with
            | none => rw [hs2] at hrun; dsimp only at hrun; exact Option.noConfusion hrun
            | some r' =>
              rw [hs2] at hrun
              obtain ⟨r2, d₂, σ₂⟩ := r'
              cases r2 with
              | t _ => dsimp only at hrun; exact Option.noConfusion hrun
              | p _ => dsimp only at hrun; exact Option.noConfusion hrun
              | c _ => dsimp only at hrun; exact Option.noConfusion hrun
              | l xs' =>
                dsimp only at hrun
                simp only [Option.some.injEq, Prod.mk.injEq] at hrun
                obtain ⟨h1, h2, h3⟩ := hrun
                subst h2; subst h3
                have hb := ih (.l xs) d₁ σ₁ (.l xs') d₂ σ₂ hs2
                  (fun u hu => by
                    obtain ⟨t, ht, hot⟩ := hu
                    have h0 := hocc u ⟨t, List.mem_cons_of_mem x ht, hot⟩
                    exact ⟨by rw [ha.2.2.2]; exact h0.1, h0.2⟩)
                  ha.2.1 (le_trans hN ha.1)
                refine ⟨le_trans ha.1 hb.1, hb.2.1, ?_, ?_⟩
                · intro u hu
                  rw [← h1] at hu
                  obtain ⟨t, ht, hot⟩ := (show ∃ t ∈ x' :: xs', OccursIn u t from hu)
                  rcases List.mem_cons.mp ht with h | h
                  · subst h; exact ha.2.2.1 u hot
                  · exact hb.2.2.1 u ⟨t, h, hot⟩
                · intro cc
                  rw [hb.2.2.2, ha.2.2.2]
    | p pr =>
      simp only [instStep, Option.bind] at hrun
      cases hsub : instStep fuel (.l pr.arguments) d σ with
      | none => rw [hsub] at hrun; dsimp only at hrun; exact Option.noConfusion hrun
      | some r =>
        rw [hsub] at hrun
        obtain ⟨r1, rd, rσ⟩ := r
        cases r1 with
        | t _ => dsimp only at hrun; exact Option.noConfusion hrun
        | p _ => dsimp only at hrun; exact Option.noConfusion hrun
        | c _ => dsimp only at hrun; exact Option.noConfusion hrun
        | l args' =>
          dsimp only at hrun
          simp only [Option.some.injEq, Prod.mk.injEq] at hrun
          obtain ⟨h1, h2, h3⟩ := hrun
          subst h2; subst h3
          have hsub' := ih (.l pr.arguments) d σ (.l args') rd rσ hsub
            (fun u hu => hocc u hu) hd hN
          refine ⟨hsub'.1, hsub'.2.1, ?_, hsub'.2.2.2⟩
          intro u hu
          rw [← h1] at hu
          exact hsub'.2.2.1 u (show ∃ t ∈ args', OccursIn u t from hu)
    | c cl =>
      simp only [instStep, Option.bind] at hrun
      cases hs1 : instStep fuel (.p cl.result) d σ with
      | none => rw [hs1] at hrun; dsimp only at hrun; exact Option.noConfusion hrun
      | some r =>
        rw [hs1] at hrun
        obtain ⟨r1, d₁, σ₁⟩ := r
        cases r1 with
        | t _ => dsimp only at hrun; exact Option.noConfusion hrun
        | l _ => dsimp only at hrun; exact Option.noConfusion hrun
        | c _ => dsimp only at hrun; exact Option.noConfusion hrun
        | p res' =>
          dsimp only at hrun
          have ha := ih (.p cl.result) d σ (.p res') d₁ σ₁ hs1
            (fun u hu => hocc u (Or.inl hu)) hd hN
          cases hs2 : instStep fuel (.l cl.conditions) d₁ σ₁ with
          | none => rw [hs2] at hrun; dsimp only at hrun; exact Option.noConfusion hrun
          | some r' =>
            rw [hs2] at hrun
            obtain ⟨r2, d₂, σ₂⟩ := r'
            cases r2 with
            | t _ => dsimp only at hrun; exact Option.noConfusion hrun
            | p _ => dsimp only at hrun; exact Option.noConfusion hrun
            | c _ => dsimp only at hrun; exact Option.noConfusion hrun
            | l conds' =>
              dsimp only at hrun
              simp only [Option.some.injEq, Prod.mk.injEq] at hrun
              obtain ⟨h1, h2, h3⟩ := hrun
              subst h2; subst h3
              have hb := ih (.l cl.conditions) d₁ σ₁ (.l conds') d₂ σ₂ hs2
                (fun u hu => by
                  have h0 := hocc u (Or.inr hu)
                  exact ⟨by rw [ha.2.2.2]; exact h0.1, h0.2⟩)
                ha.2.1 (le_trans hN ha.1)
              refine ⟨le_trans ha.1 hb.1, hb.2.1, ?_, ?_⟩
              · intro u hu
                rw [← h1] at hu
                rcases (show OccursInClause u ⟨res', conds'⟩ from hu) with hu | hu
                · exact ha.2.2.1 u hu
                · exact hb.2.2.1 u hu
              · intro cc
                rw [hb.2.2.2, ha.2.2.2]

/-- C6: for every clause `c` (with its variables unbound and their ids
below the fresh-id counter, as holds for every clause in the knowledge
base), the variables occurring in `instantiate(c)` (with an empty starting
dict) are disjoint — as `(name, id)` identities — from the variables
occurring in `c`. -/
theorem claim6_instantiate_vars_disjoint
    (fuel : Nat) (c c' : Clause) (σ σ' : State) (d' : Dict)
    (hrun : instStep fuel (.c c) [] σ = some (.c c', d', σ'))
    (hub : ∀ v, OccursInClause v c → σ.read v.cell = none)
    (hid : ∀ v, OccursInClause v c → v.id < σ.nextId) :
    ∀ v w, OccursInClause v c → OccursInClause w c' → w.sameNI v = false := by
  intro v w hv hw
  have h := instStep_fresh σ.nextId fuel (.c c) [] σ (.c c') d' σ' hrun
    (fun u hu => ⟨hub u hu, hid u hu⟩) (by intro pr hpr; cases hpr) (le_refl _)
  have hwid : σ.nextId ≤ w.id := h.2.2.1 w hw
  have hvid : v.id < σ.nextId := hid v hv
  have : w.id ≠ v.id := by omega
  simp [Variable.sameNI, this]

theorem claim6_witness :
    Variable.sameNI ⟨"X", 2, 1⟩ ⟨"X", 1, 0⟩ = false :=
  claim6_instantiate_vars_disjoint 5
    ⟨⟨⟨"p"⟩, [.Var ⟨"X", 1, 0⟩]⟩, []⟩ ⟨⟨⟨"p"⟩, [.Var ⟨"X", 2, 1⟩]⟩, []⟩
    ⟨2, [none], 0⟩ ⟨3, [none, none], 0⟩ [(⟨"X", 1, 0⟩, ⟨"X", 2, 1⟩)] rfl
    (by
      intro v hv
      rcases hv with ⟨t, ht, hot⟩ | ⟨t, ht, hot⟩
      · rcases List.mem_singleton.mp ht with rfl
        rcases occursIn_var_inv hot with rfl
        rfl
      · exact absurd ht (List.not_mem_nil t))
    (by
      intro v hv
      rcases hv with ⟨t, ht, hot⟩ | ⟨t, ht, hot⟩
      · rcases List.mem_singleton.mp ht with rfl
        rcases occursIn_var_inv hot with rfl
        exact Nat.lt_succ_self 1
      · exact absurd ht (List.not_mem_nil t))
    ⟨"X", 1, 0⟩ ⟨"X", 2, 1⟩
    (Or.inl ⟨.Var ⟨"X", 1, 0⟩, List.mem_singleton.mpr rfl, OccursIn.var⟩)
    (Or.inl ⟨.Var ⟨"X", 2, 1⟩, List.mem_singleton.mpr rfl, OccursIn.var⟩)

end Prolog

namespace Prolog

/-! ## C9: tracing as an observer -/

/-- With no live borrow guards, rendering never panics. -/
theorem render_no_panic : ∀ (fuel : Nat) (σ : State) (req : RReq),
    renderStep fuel [] σ req ≠ .panic := by
  intro fuel
  induction fuel with
  | zero => intro σ req h; exact ROut.noConfusion h
  | succ fuel ih =>
    intro σ req
    cases req with
    | t x =>
      cases x with
      | Var v =>
        simp only [renderStep, List.not_mem_nil, if_false]
        cases σ.read v.cell with
        | none => exact fun h => ROut.noConfusion h
        | some t =>
          cases hr : renderStep fuel [] σ (.t t) with
          | ok s => simp [hr]
          | div => simp [hr]
          | panic => exact absurd hr (ih σ (.t t))
      | Pred n args =>
        simp only [renderStep]
        cases hr : renderStep fuel [] σ (.l args) with
        | ok s => simp [hr]
        | div => simp [hr]
        | panic => exact absurd hr (ih σ (.l args))
      | list l =>
        simp only [renderStep]
        exact ih σ (.l l)
    | l ts =>
      cases ts with
      | nil => simp [renderStep]
      | cons x xs =>
        simp only [renderStep]
        cases hr : renderStep fuel [] σ (.t x) with
        | panic => exact absurd hr (ih σ (.t x))
        | div => simp [hr]
        | ok s =>
          cases xs with
          | nil => simp [hr]
          | cons y ys =>
            cases hr2 : renderStep fuel [] σ (.l (y :: ys)) with
            | panic => exact absurd hr2 (ih σ (.l (y :: ys)))
            | div => simp [hr, hr2]
            | ok s2 => simp [hr, hr2]

/-- The state after the debug-off run of the C9 counterexample: `X ↦ A`
(pre-existing) and `A ↦ f(X)` (written by the call) form a cycle through
the cells, so `Display` recurses forever on them. -/
def σC9' : State :=
  ⟨3, [some (.Var ⟨"A", 2, 1⟩), some (.Pred ⟨"f"⟩ [.Var ⟨"X", 1, 0⟩])], 0⟩

/-- Rendering any term on the `X ↦ A ↦ f(X)` cycle diverges at every
render fuel. -/
theorem renderC9_div : ∀ n : Nat,
    renderStep n [] σC9' (.t (.Var ⟨"A", 2, 1⟩)) = .div ∧
    renderStep n [] σC9' (.t (.Pred ⟨"f"⟩ [.Var ⟨"X", 1, 0⟩])) = .div ∧
    renderStep n [] σC9' (.l [.Var ⟨"X", 1, 0⟩]) = .div ∧
    renderStep n [] σC9' (.t (.Var ⟨"X", 1, 0⟩)) = .div := by
  intro n
  induction n with
  | zero => exact ⟨rfl, rfl, rfl, rfl⟩
  | succ n ih =>
    refine ⟨?_, ?_, ?_, ?_⟩
    · simp [renderStep, show σC9'.read 1 = some (.Pred ⟨"f"⟩ [.Var ⟨"X", 1, 0⟩]) from rfl,
        ih.2.1]
    · simp [renderStep, ih.2.2.1]
    · simp [renderStep, ih.2.2.2]
    · simp [renderStep, show σC9'.read 0 = some (.Var ⟨"A", 2, 1⟩) from rfl, ih.1]

/-- The debug-enabled run never returns, whatever the engine fuel and the
render fuel: in Rust, the traced call does not terminate. -/
def debugDiverges (t u : Term) (σ : State) : Prop :=
  ∀ fuel rfuel, Term.unify fuel true rfuel [] t u σ = .div

/-- C9 (counterexample): unifying `f(X)` with the unbound `A` in a state
where `X` is already bound to `A` (a state the engine itself reaches, e.g.
while deriving `?- eq(X, f(X)).` against `eq(A, A).`).  With tracing off
the call returns Ok; with tracing on, the `debug_println!` in
`Variable::assign` renders the freshly created cyclic binding through
`Display`, which recurses forever — the call never returns, so tracing is
not a pure observer. -/
theorem claim9_counterexample_tracing_changes_result :
    debugDiverges (.Pred ⟨"f"⟩ [.Var ⟨"X", 1, 0⟩]) (.Var ⟨"A", 2, 1⟩)
        ⟨3, [some (.Var ⟨"A", 2, 1⟩), none], 0⟩ ∧
    Term.unify 10 false 0 [] (.Pred ⟨"f"⟩ [.Var ⟨"X", 1, 0⟩]) (.Var ⟨"A", 2, 1⟩)
        ⟨3, [some (.Var ⟨"A", 2, 1⟩), none], 0⟩ = .ret (.ok ()) σC9' := by
  constructor
  · intro fuel rfuel
    cases fuel with
    | zero => rfl
    | succ fuel =>
      cases hga : renderStep rfuel [] ⟨3, [some (.Var ⟨"A", 2, 1⟩), none], 0⟩
          (.t (.Pred ⟨"f"⟩ [.Var ⟨"X", 1, 0⟩])) with
      | panic => exact absurd hga (render_no_panic rfuel _ _)
      | div => simp [Term.unify, unifyStep, gate2, hga]
      | ok s =>
        cases hgb : renderStep rfuel [] ⟨3, [some (.Var ⟨"A", 2, 1⟩), none], 0⟩
            (.t (.Var ⟨"A", 2, 1⟩)) with
        | panic => exact absurd hgb (render_no_panic rfuel _ _)
        | div => simp [Term.unify, unifyStep, gate2, hga, hgb]
        | ok s' =>
          cases fuel with
          | zero => simp [Term.unify, unifyStep, gate2, hga, hgb]
          | succ m =>
            cases m with
            | zero =>
              simp [Term.unify, unifyStep, gate2, hga, hgb, State.read, State.write,
                Variable.compress]
            | succ k =>
              have hdiv := (renderC9_div rfuel).1
              simp [Term.unify, unifyStep, gate2, hga, hgb, State.read, State.write,
                Variable.compress, σC9', hdiv] at hdiv ⊢
  · rfl

end Prolog

namespace Prolog

/-- Whenever the debug-enabled unifier returns, the debug-disabled unifier
returns the identical result and state. -/
theorem unify_debug_indep (rfuel : Nat) :
    ∀ (fuel : Nat) (locked : List Nat) (req : UReq) (σ : State)
      (r : Except String Unit) (σ' : State),
      unifyStep true rfuel fuel locked req σ = .ret r σ' →
      unifyStep false rfuel fuel locked req σ = .ret r σ' := by
  intro fuel
  induction fuel with
  | zero => intro _ _ _ _ _ h; exact Outcome.noConfusion h
  | succ fuel ih =>
    intro locked req σ r σ' hrun
    cases req with
    | t a b =>
      simp only [unifyStep] at hrun ⊢
      rw [gate2_false]
      dsimp only
      cases hg : gate2 true (renderStep rfuel locked σ (.t a)) (renderStep rfuel locked σ (.t b)) with
      | div => simp [hg] at hrun
      | panic => simp [hg] at hrun
      | ok s =>
        simp only [hg] at hrun
        cases a <;> cases b <;> first | exact ih _ _ _ _ _ hrun | exact hrun
    | p a b =>
      simp only [unifyStep] at hrun ⊢
      rw [gate2_false]
      dsimp only
      cases hg : gate2 true (renderStep rfuel locked σ (.t (.Pred a.name a.arguments)))
          (renderStep rfuel locked σ (.t (.Pred b.name b.arguments))) with
      | div => simp [hg] at hrun
      | panic => simp [hg] at hrun
      | ok s =>
        simp only [hg] at hrun
        by_cases hn : a.name = b.name
        · rw [if_pos hn] at hrun ⊢
          exact ih _ _ _ _ _ hrun
        · rw [if_neg hn] at hrun ⊢
          exact hrun
    | pl x y =>
      simp only [unifyStep] at hrun ⊢
      cases x with
      | nil =>
        cases y with
        | nil => exact hrun
        | cons y ys => exact hrun
      | cons h t =>
        cases y with
        | nil => exact hrun
        | cons h' t' =>
          dsimp only at hrun ⊢
          cases hu : unifyStep true rfuel fuel locked (.t h h') σ with
          | div => simp [hu] at hrun
          | panic => simp [hu] at hrun
          | ret e σ₁ =>
            cases e with
            | ok u =>
              cases u
              simp only [hu] at hrun
              simp only [ih _ _ _ _ _ hu]
              exact ih _ _ _ _ _ hrun
            | error err =>
              simp only [hu] at hrun
              simp only [ih _ _ _ _ _ hu]
              exact hrun
    | l x y =>
      simp only [unifyStep] at hrun ⊢
      rw [gate2_false]
      dsimp only
      cases hg : gate2 true (renderStep rfuel locked σ (.t (.list x)))
          (renderStep rfuel locked σ (.t (.list y))) with
      | div => simp [hg] at hrun
      | panic => simp [hg] at hrun
      | ok s =>
        simp only [hg] at hrun
        cases x with
        | nil =>
          cases y with
          | nil => exact hrun
          | cons y ys => exact hrun
        | cons h t =>
          cases y with
          | nil => exact hrun
          | cons h' t' =>
            dsimp only at hrun ⊢
            cases hu : unifyStep true rfuel fuel locked (.t h h') σ with
            | div => simp [hu] at hrun
            | panic => simp [hu] at hrun
            | ret e σ₁ =>
              cases e with
              | ok u =>
                cases u
                simp only [hu] at hrun
                simp only [ih _ _ _ _ _ hu]
                exact ih _ _ _ _ _ hrun
              | error err =>
                simp only [hu] at hrun
                simp only [ih _ _ _ _ _ hu]
                exact hrun
    | av v t =>
      by_cases hm : v.cell ∈ locked
      · simp only [unifyStep, if_pos hm] at hrun
        exact Outcome.noConfusion hrun
      · simp only [unifyStep, if_neg hm] at hrun ⊢
        cases hc : σ.read v.cell with
        | none =>
          simp only [hc] at hrun ⊢
          cases hcomp : Variable.compress fuel locked v (σ.write v.cell t) with
          | div => simp [hcomp] at hrun
          | panic => simp [hcomp] at hrun
          | ret ce σ₂ =>
            simp only [hcomp] at hrun ⊢
            rw [gate2_false]
            dsimp only
            cases hg : gate2 true (renderStep rfuel locked σ₂ (.t (.Var v)))
                (match σ₂.read v.cell with
                 | some c => renderStep rfuel locked σ₂ (.t c)
                 | none => .panic) with
            | div => simp [hg] at hrun
            | panic => simp [hg] at hrun
            | ok s =>
              simp only [hg] at hrun
              exact hrun
        | some other =>
          simp only [hc] at hrun ⊢
          cases hu : unifyStep true rfuel fuel (v.cell :: locked) (.t other t) σ with
          | div => simp [hu] at hrun
          | panic => simp [hu] at hrun
          | ret e σ₁ =>
            cases e with
            | error err =>
              simp only [hu] at hrun
              simp only [ih _ _ _ _ _ hu]
              exact hrun
            | ok u =>
              cases u
              simp only [hu] at hrun
              simp only [ih _ _ _ _ _ hu]
              cases hcomp : Variable.compress fuel locked v σ₁ with
              | div => simp [hcomp] at hrun
              | panic => simp [hcomp] at hrun
              | ret ce σ₂ =>
                simp only [hcomp] at hrun ⊢
                rw [gate2_false]
                dsimp only
                cases hg : gate2 true (renderStep rfuel locked σ₂ (.t (.Var v)))
                    (match σ₂.read v.cell with
                     | some c => renderStep rfuel locked σ₂ (.t c)
                     | none => .panic) with
                | div => simp [hg] at hrun
                | panic => simp [hg] at hrun
                | ok s =>
                  simp only [hg] at hrun
                  exact hrun

/-- Whenever the debug-enabled derivation returns, the debug-disabled
derivation returns the identical result and state. -/
theorem derive_debug_indep (rfuel : Nat) (kb : List Clause) :
    ∀ (fuel : Nat) (req : DReq) (σ : State)
      (r : Except String (List Variable)) (σ' : State),
      deriveStep true rfuel kb fuel req σ = .ret r σ' →
      deriveStep false rfuel kb fuel req σ = .ret r σ' := by
  intro fuel
  induction fuel with
  | zero => intro _ _ _ _ h; exact Outcome.noConfusion h
  | succ fuel ih =>
    intro req σ r σ' hrun
    cases req with
    | p p =>
      simp only [deriveStep] at hrun ⊢
      rw [gate1_false]
      dsimp only
      cases hg : gate1 true (renderStep rfuel [] σ (.t (.Pred p.name p.arguments))) with
      | div => simp [hg] at hrun
      | panic => simp [hg] at hrun
      | ok s =>
        simp only [hg] at hrun
        exact ih _ _ _ _ hrun
    | lp p cs =>
      cases cs with
      | nil => exact hrun
      | cons c rest =>
        simp only [deriveStep] at hrun ⊢
        cases hinst : instStep fuel (.c c) [] σ with
        | none => simp [hinst] at hrun
        | some ires =>
          obtain ⟨r1, d1, σ₁⟩ := ires
          cases r1 with
          | t x => simp [hinst] at hrun
          | l x => simp [hinst] at hrun
          | p x => simp [hinst] at hrun
          | c fact =>
            simp only [hinst] at hrun ⊢
            cases hu : unifyStep true rfuel fuel [] (.p p fact.result) σ₁ with
            | div => simp [hu] at hrun
            | panic => simp [hu] at hrun
            | ret e σ₂ =>
              cases e with
              | error err =>
                simp only [hu] at hrun
                simp only [unify_debug_indep rfuel fuel [] (.p p fact.result) σ₁ _ _ hu]
                exact ih _ _ _ _ hrun
              | ok u =>
                cases u
                simp only [hu] at hrun
                simp only [unify_debug_indep rfuel fuel [] (.p p fact.result) σ₁ _ _ hu]
                cases hd2 : deriveStep true rfuel kb fuel (.conj fact.conditions) σ₂ with
                | div => simp [hd2] at hrun
                | panic => simp [hd2] at hrun
                | ret e2 σ₃ =>
                  cases e2 with
                  | error err =>
                    simp only [hd2] at hrun
                    simp only [ih _ _ _ _ hd2]
                    exact ih _ _ _ _ hrun
                  | ok vs2 =>
                    simp only [hd2] at hrun
                    simp only [ih _ _ _ _ hd2]
                    cases hv : varsStep fuel (.l p.arguments) with
                    | none => simp [hv] at hrun
                    | some vs =>
                      simp only [hv] at hrun ⊢
                      cases hca : deriveStep true rfuel kb fuel (.compAll vs) σ₃.unshift with
                      | div => simp [hca] at hrun
                      | panic => simp [hca] at hrun
                      | ret ce σ₅ =>
                        simp only [hca] at hrun
                        simp only [ih _ _ _ _ hca]
                        exact hrun
    | t x =>
      cases x with
      | Var v => exact hrun
      | Pred n args =>
        simp only [deriveStep] at hrun ⊢
        exact ih _ _ _ _ hrun
      | list l =>
        simp only [deriveStep] at hrun ⊢
        exact ih _ _ _ _ hrun
    | conj l =>
      cases l with
      | nil => exact hrun
      | cons h t =>
        simp only [deriveStep] at hrun ⊢
        cases hh : deriveStep true rfuel kb fuel (.t h) σ with
        | div => simp [hh] at hrun
        | panic => simp [hh] at hrun
        | ret e σ₁ =>
          cases e with
          | error err =>
            simp only [hh] at hrun
            simp only [ih _ _ _ _ hh]
            exact hrun
          | ok vs =>
            simp only [hh] at hrun
            simp only [ih _ _ _ _ hh]
            cases ht : deriveStep true rfuel kb fuel (.conj t) σ₁ with
            | div => simp [ht] at hrun
            | panic => simp [ht] at hrun
            | ret e2 σ₂ =>
              cases e2 with
              | error err =>
                simp only [ht] at hrun
                simp only [ih _ _ _ _ ht]
                exact hrun
              | ok vs' =>
                simp only [ht] at hrun
                simp only [ih _ _ _ _ ht]
                exact hrun
    | compAll vs =>
      cases vs with
      | nil => exact hrun
      | cons v rest =>
        simp only [deriveStep] at hrun ⊢
        cases hcomp : Variable.compress fuel [] v σ with
        | div => simp [hcomp] at hrun
        | panic => simp [hcomp] at hrun
        | ret ce σ₁ =>
          simp only [hcomp] at hrun ⊢
          exact ih _ _ _ _ hrun

/-- C9 (amended): tracing affects only the produced output: whenever the
debug-enabled run of `derive` or `unify` returns, the debug-disabled run
returns the identical result and final state.  (The converse fails: the
debug-enabled run may diverge while rendering a cyclic binding, or panic
rendering a locked cell, where the debug-disabled run returns — see the
counterexample.) -/
theorem claim9_tracing_observer_when_terminating :
    (∀ (fuel rfuel : Nat) (p : Predicate) (kb : List Clause) (σ : State) r σ',
      Predicate.derive fuel true rfuel p kb σ = .ret r σ' →
      Predicate.derive fuel false rfuel p kb σ = .ret r σ')
  ∧ (∀ (fuel rfuel : Nat) (locked : List Nat) (a b : Term) (σ : State) r σ',
      Term.unify fuel true rfuel locked a b σ = .ret r σ' →
      Term.unify fuel false rfuel locked a b σ = .ret r σ') := by
  constructor
  · intro fuel rfuel p kb σ r σ' h
    exact derive_debug_indep rfuel kb fuel (.p p) σ r σ' h
  · intro fuel rfuel locked a b σ r σ' h
    exact unify_debug_indep rfuel fuel locked (.t a b) σ r σ' h

theorem claim9_witness :
    Predicate.derive 20 false 50 ⟨⟨"p"⟩, [.Var ⟨"X", 1, 0⟩]⟩
        [⟨⟨⟨"p"⟩, [.Pred ⟨"b"⟩ []]⟩, []⟩] ⟨2, [none], 0⟩ =
      .ret (.ok [⟨"X", 1, 0⟩]) ⟨2, [some (.Pred ⟨"b"⟩ [])], 0⟩ :=
  claim9_tracing_observer_when_terminating.1 20 50 ⟨⟨"p"⟩, [.Var ⟨"X", 1, 0⟩]⟩
    [⟨⟨⟨"p"⟩, [.Pred ⟨"b"⟩ []]⟩, []⟩] ⟨2, [none], 0⟩ (.ok [⟨"X", 1, 0⟩])
    ⟨2, [some (.Pred ⟨"b"⟩ [])], 0⟩ rfl

end Prolog

namespace Prolog

/-! ## C7: derivation never writes the knowledge base's binding cells

`C` is a set (list) of protected cell addresses — the cells of the
variables stored in the knowledge base.  A term *avoids* `C` when no
variable occurring in it has its cell in `C`; the engine can only write a
cell it reaches through some variable occurrence, so runs over inputs and
stores avoiding `C` leave every `C` cell untouched. -/

def TermAvoids (C : List Nat) (t : Term) : Prop :=
  ∀ v, OccursIn v t → v.cell ∉ C

def ListAvoids (C : List Nat) (l : List Term) : Prop :=
  ∀ t ∈ l, TermAvoids C t

def StoreAvoids (C : List Nat) (σ : State) : Prop :=
  ∀ c t, σ.read c = some t → TermAvoids C t

theorem termAvoids_var {C : List Nat} {v : Variable}
    (h : TermAvoids C (.Var v)) : v.cell ∉ C :=
  h v OccursIn.var

theorem termAvoids_pred {C : List Nat} {n : Atom} {args : List Term}
    (h : TermAvoids C (.Pred n args)) : ListAvoids C args :=
  fun _ ht v hv => h v (OccursIn.pred ht hv)

theorem termAvoids_list {C : List Nat} {l : List Term}
    (h : TermAvoids C (.list l)) : ListAvoids C l :=
  fun _ ht v hv => h v (OccursIn.list ht hv)

theorem listAvoids_pred {C : List Nat} {n : Atom} {args : List Term}
    (h : ListAvoids C args) : TermAvoids C (.Pred n args) := by
  intro v hv
  obtain ⟨t, ht, hot⟩ := occursIn_pred_inv hv
  exact h t ht v hot

theorem getD_set_ne (l : List (Option Term)) (i j : Nat) (a : Option Term)
    (h : i ≠ j) : (l.set i a).getD j none = l.getD j none := by
  induction l generalizing i j with
  | nil => rfl
  | cons x xs ih =>
    cases i with
    | zero =>
      cases j with
      | zero => exact absurd rfl h
      | succ j => rfl
    | succ i =>
      cases j with
      | zero => rfl
      | succ j => exact ih i j (fun he => h (by rw [he]))

theorem getD_set_cases (l : List (Option Term)) (i j : Nat) (a : Option Term)
    (u : Term) (h : (l.set i a).getD j none = some u) :
    (i = j ∧ a = some u) ∨ l.getD j none = some u := by
  by_cases hij : i = j
  · subst hij
    induction l generalizing i with
    | nil => exact Or.inr h
    | cons x xs ih =>
      cases i with
      | zero => exact Or.inl ⟨rfl, h⟩
      | succ i =>
        rcases ih i h with ⟨_, h2⟩ | h2
        · exact Or.inl ⟨rfl, h2⟩
        · exact Or.inr h2
  · rw [getD_set_ne l i j a hij] at h
    exact Or.inr h

/-- Frame for a write outside `C`. -/
theorem read_write_frame (σ : State) (c : Nat) (t : Term) (C : List Nat)
    (hc : c ∉ C) : ∀ c' ∈ C, (σ.write c t).read c' = σ.read c' := by
  intro c' hc'
  exact getD_set_ne σ.cells c c' (some t) (fun he => hc (he ▸ hc'))

/-- A write of a `C`-avoiding term preserves `StoreAvoids`. -/
theorem storeAvoids_write {C : List Nat} {σ : State} {c : Nat} {t : Term}
    (hσ : StoreAvoids C σ) (ht : TermAvoids C t) :
    StoreAvoids C (σ.write c t) := by
  intro c' u hu
  rcases getD_set_cases σ.cells c c' (some t) u hu with ⟨_, h2⟩ | h2
  · cases h2; exact ht
  · exact hσ c' u h2

/-- `compress` writes only cells reached from `v` through store contents:
if `v`'s cell avoids `C` and the store's contents avoid `C`, the `C` cells
are untouched, the store still avoids `C`, and no cell is allocated. -/
theorem compress_avoid (C : List Nat) :
    ∀ (fuel : Nat) (locked : List Nat) (v : Variable) (σ : State)
      (r : Except String Unit) (σ' : State),
      Variable.compress fuel locked v σ = .ret r σ' →
      v.cell ∉ C →
      StoreAvoids C σ →
      (∀ c ∈ C, σ'.read c = σ.read c) ∧ StoreAvoids C σ' ∧
        σ'.cells.length = σ.cells.length := by
  intro fuel
  induction fuel with
  | zero => intro _ _ _ _ _ h; exact Outcome.noConfusion h
  | succ fuel ih =>
    intro locked v σ r σ' hrun hv hσ
    by_cases hm : v.cell ∈ locked
    · simp only [Variable.compress, if_pos hm] at hrun
      exact Outcome.noConfusion hrun
    · simp only [Variable.compress, if_neg hm] at hrun
      cases hc : σ.read v.cell with
      | none =>
        simp only [hc] at hrun
        obtain ⟨h1, h2⟩ := Outcome.ret.inj hrun
        subst h2
        exact ⟨fun c _ => rfl, hσ, rfl⟩
      | some t =>
        simp only [hc] at hrun
        cases t with
        | Var w =>
          have hw : w.cell ∉ C := termAvoids_var (hσ v.cell (.Var w) hc)
          cases hcomp : Variable.compress fuel (v.cell :: locked) w σ with
          | div => simp [hcomp] at hrun
          | panic => simp [hcomp] at hrun
          | ret ce σ₁ =>
            simp only [hcomp] at hrun
            have ha := ih (v.cell :: locked) w σ ce σ₁ hcomp hw hσ
            by_cases hwm : w.cell ∈ v.cell :: locked
            · rw [if_pos hwm] at hrun
              exact Outcome.noConfusion hrun
            · rw [if_neg hwm] at hrun
              cases hc2 : σ₁.read w.cell with
              | none =>
                simp only [hc2] at hrun
                obtain ⟨h1, h2⟩ := Outcome.ret.inj hrun
                subst h2
                exact ha
              | some s =>
                simp only [hc2] at hrun
                obtain ⟨h1, h2⟩ := Outcome.ret.inj hrun
                subst h2
                have hs : TermAvoids C s := ha.2.1 w.cell s hc2
                refine ⟨?_, storeAvoids_write ha.2.1 hs, ?_⟩
                · intro c hcC
                  rw [read_write_frame σ₁ v.cell s C hv c hcC, ha.1 c hcC]
                · simp only [State.write, List.length_set]
                  exact ha.2.2
        | Pred n args =>
          obtain ⟨h1, h2⟩ := Outcome.ret.inj hrun
          subst h2
          exact ⟨fun c _ => rfl, hσ, rfl⟩
        | list l =>
          obtain ⟨h1, h2⟩ := Outcome.ret.inj hrun
          subst h2
          exact ⟨fun c _ => rfl, hσ, rfl⟩

end Prolog

namespace Prolog

/-- The terms reachable by a unification request. -/
def UAvoids (C : List Nat) : UReq → Prop
  | .t a b => TermAvoids C a ∧ TermAvoids C b
  | .p a b => ListAvoids C a.arguments ∧ ListAvoids C b.arguments
  | .pl x y => ListAvoids C x ∧ ListAvoids C y
  | .l x y => ListAvoids C x ∧ ListAvoids C y
  | .av v t => v.cell ∉ C ∧ TermAvoids C t

/-- Unification writes only cells of variables reachable from its
arguments or through store contents: over `C`-avoiding inputs and store,
the `C` cells are untouched, the store still avoids `C`, and no cell is
allocated. -/
theorem unify_avoid (C : List Nat) :
    ∀ (fuel : Nat) (locked : List Nat) (req : UReq) (σ : State)
      (r : Except String Unit) (σ' : State),
      unifyStep false 0 fuel locked req σ = .ret r σ' →
      UAvoids C req →
      StoreAvoids C σ →
      (∀ c ∈ C, σ'.read c = σ.read c) ∧ StoreAvoids C σ' ∧
        σ'.cells.length = σ.cells.length := by
  intro fuel
  induction fuel with
  | zero => intro _ _ _ _ _ h; exact Outcome.noConfusion h
  | succ fuel ih =>
    intro locked req σ r σ' hrun hav hσ
    cases req with
    | t a b =>
      simp only [unifyStep, gate2_false] at hrun
      cases a <;> cases b <;>
        first
        | exact ih _ _ _ _ _ hrun ⟨termAvoids_var hav.1, hav.2⟩ hσ
        | exact ih _ _ _ _ _ hrun ⟨termAvoids_var hav.2, hav.1⟩ hσ
        | exact ih _ _ _ _ _ hrun ⟨termAvoids_pred hav.1, termAvoids_pred hav.2⟩ hσ
        | exact ih _ _ _ _ _ hrun ⟨termAvoids_list hav.1, termAvoids_list hav.2⟩ hσ
        | (obtain ⟨h1, h2⟩ := Outcome.ret.inj hrun
           subst h2
           exact ⟨fun c _ => rfl, hσ, rfl⟩)
    | p a b =>
      simp only [unifyStep, gate2_false] at hrun
      by_cases hn : a.name = b.name
      · rw [if_pos hn] at hrun
        exact ih _ _ _ _ _ hrun hav hσ
      · rw [if_neg hn] at hrun
        obtain ⟨h1, h2⟩ := Outcome.ret.inj hrun
        subst h2
        exact ⟨fun c _ => rfl, hσ, rfl⟩
    | pl x y =>
      simp only [unifyStep] at hrun
      cases x with
      | nil =>
        cases y with
        | nil =>
          obtain ⟨h1, h2⟩ := Outcome.ret.inj hrun
          subst h2
          exact ⟨fun c _ => rfl, hσ, rfl⟩
        | cons y ys =>
          obtain ⟨h1, h2⟩ := Outcome.ret.inj hrun
          subst h2
          exact ⟨fun c _ => rfl, hσ, rfl⟩
      | cons h t =>
        cases y with
        | nil =>
          obtain ⟨h1, h2⟩ := Outcome.ret.inj hrun
          subst h2
          exact ⟨fun c _ => rfl, hσ, rfl⟩
        | cons h' t' =>
          dsimp only at hrun
          cases hu : unifyStep false 0 fuel locked (.t h h') σ with
          | div => simp [hu] at hrun
          | panic => simp [hu] at hrun
          | ret e σ₁ =>
            have ha := ih _ _ _ _ _ hu
              ⟨hav.1 h (List.mem_cons_self h t), hav.2 h' (List.mem_cons_self h' t')⟩ hσ
            cases e with
            | ok u =>
              cases u
              simp only [hu] at hrun
              have hb := ih _ _ _ _ _ hrun
                ⟨fun s hs => hav.1 s (List.mem_cons_of_mem h hs),
                 fun s hs => hav.2 s (List.mem_cons_of_mem h' hs)⟩ ha.2.1
              refine ⟨?_, hb.2.1, by rw [hb.2.2, ha.2.2]⟩
              intro c hcC
              rw [hb.1 c hcC, ha.1 c hcC]
            | error err =>
              simp only [hu] at hrun
              obtain ⟨h1, h2⟩ := Outcome.ret.inj hrun
              subst h2
              exact ha
    | l x y =>
      simp only [unifyStep, gate2_false] at hrun
      cases x with
      | nil =>
        cases y with
        | nil =>
          obtain ⟨h1, h2⟩ := Outcome.ret.inj hrun
          subst h2
          exact ⟨fun c _ => rfl, hσ, rfl⟩
        | cons y ys =>
          obtain ⟨h1, h2⟩ := Outcome.ret.inj hrun
          subst h2
          exact ⟨fun c _ => rfl, hσ, rfl⟩
      | cons h t =>
        cases y with
        | nil =>
          obtain ⟨h1, h2⟩ := Outcome.ret.inj hrun
          subst h2
          exact ⟨fun c _ => rfl, hσ, rfl⟩
        | cons h' t' =>
          dsimp only at hrun
          cases hu : unifyStep false 0 fuel locked (.t h h') σ with
          | div => simp [hu] at hrun
          | panic => simp [hu] at hrun
          | ret e σ₁ =>
            have ha := ih _ _ _ _ _ hu
              ⟨hav.1 h (List.mem_cons_self h t), hav.2 h' (List.mem_cons_self h' t')⟩ hσ
            cases e with
            | ok u =>
              cases u
              simp only [hu] at hrun
              have hb := ih _ _ _ _ _ hrun
                ⟨fun s hs => hav.1 s (List.mem_cons_of_mem h hs),
                 fun s hs => hav.2 s (List.mem_cons_of_mem h' hs)⟩ ha.2.1
              refine ⟨?_, hb.2.1, by rw [hb.2.2, ha.2.2]⟩
              intro c hcC
              rw [hb.1 c hcC, ha.1 c hcC]
            | error err =>
              simp only [hu] at hrun
              obtain ⟨h1, h2⟩ := Outcome.ret.inj hrun
              subst h2
              exact ha
    | av v t =>
      by_cases hm : v.cell ∈ locked
      · simp only [unifyStep, if_pos hm] at hrun
        exact Outcome.noConfusion hrun
      · simp only [unifyStep, if_neg hm] at hrun
        cases hc : σ.read v.cell with
        | none =>
          simp only [hc] at hrun
          cases hcomp : Variable.compress fuel locked v (σ.write v.cell t) with
          | div => simp [hcomp] at hrun
          | panic => simp [hcomp] at hrun
          | ret ce σ₂ =>
            simp only [hcomp, gate2_false] at hrun
            obtain ⟨h1, h2⟩ := Outcome.ret.inj hrun
            subst h2
            have hwr := storeAvoids_write hσ hav.2 (c := v.cell)
            have ha := compress_avoid C fuel locked v (σ.write v.cell t) ce σ₂ hcomp hav.1 hwr
            refine ⟨?_, ha.2.1, ?_⟩
            · intro c hcC
              rw [ha.1 c hcC, read_write_frame σ v.cell t C hav.1 c hcC]
            · rw [ha.2.2]
              simp [State.write, List.length_set]
        | some other =>
          simp only [hc] at hrun
          have hother : TermAvoids C other := hσ v.cell other hc
          cases hu : unifyStep false 0 fuel (v.cell :: locked) (.t other t) σ with
          | div => simp [hu] at hrun
          | panic => simp [hu] at hrun
          | ret e σ₁ =>
            have ha := ih _ _ _ _ _ hu ⟨hother, hav.2⟩ hσ
            cases e with
            | error err =>
              simp only [hu] at hrun
              obtain ⟨h1, h2⟩ := Outcome.ret.inj hrun
              subst h2
              exact ha
            | ok u =>
              cases u
              simp only [hu] at hrun
              cases hcomp : Variable.compress fuel locked v σ₁ with
              | div => simp [hcomp] at hrun
              | panic => simp [hcomp] at hrun
              | ret ce σ₂ =>
                simp only [hcomp, gate2_false] at hrun
                obtain ⟨h1, h2⟩ := Outcome.ret.inj hrun
                subst h2
                have hb := compress_avoid C fuel locked v σ₁ ce σ₂ hcomp hav.1 ha.2.1
                refine ⟨?_, hb.2.1, by rw [hb.2.2, ha.2.2]⟩
                intro c hcC
                rw [hb.1 c hcC, ha.1 c hcC]

end Prolog

namespace Prolog

/-- Cell-freshness of `instantiate`: over unbound request variables, every
variable of the result has its cell at or above the watermark `M` (dict
range cells are `≥ M`, and brand new cells are allocated at the end of the
store); the store only grows and no read changes. -/
theorem instStep_cells (M : Nat) :
    ∀ (fuel : Nat) (req : IReq) (d : Dict) (σ : State) (res : IRes) (d' : Dict) (σ' : State),
      instStep fuel req d σ = some (res, d', σ') →
      (∀ u, OccursInReq u req → σ.read u.cell = none) →
      (∀ pr ∈ d, M ≤ (Prod.snd pr).cell) →
      M ≤ σ.cells.length →
      σ.cells.length ≤ σ'.cells.length ∧
      (∀ pr ∈ d', M ≤ (Prod.snd pr).cell) ∧
      (∀ u, OccursInRes u res → M ≤ u.cell) ∧
      (∀ cc, σ'.read cc = σ.read cc) := by
  intro fuel
  induction fuel with
  | zero => intro req d σ res d' σ' h; exact absurd h (by simp [instStep])
  | succ fuel ih =>
    intro req d σ res d' σ' hrun hocc hd hM
    cases req with
    | t x =>
      cases x with
      | Var v =>
        have hv := hocc v OccursIn.var
        simp only [instStep] at hrun
        cases hlk : Dict.lookupNI d v with
        | some w =>
          rw [instantiate_hit v w d σ hv hlk] at hrun
          dsimp only at hrun
          simp only [Option.some.injEq, Prod.mk.injEq] at hrun
          obtain ⟨h1, h2, h3⟩ := hrun
          subst h2; subst h3; subst h1
          refine ⟨le_refl _, hd, ?_, fun cc => rfl⟩
          intro u hu
          have hw := occursIn_var_inv (show OccursIn u (.Var w) from hu)
          rw [hw]
          obtain ⟨k, hk⟩ := lookupNI_mem d v w hlk
          exact hd (k, w) hk
        | none =>
          rw [instantiate_miss v d σ hv hlk] at hrun
          dsimp only at hrun
          simp only [Option.some.injEq, Prod.mk.injEq] at hrun
          obtain ⟨h1, h2, h3⟩ := hrun
          subst h2; subst h3; subst h1
          refine ⟨by simp, ?_, ?_, ?_⟩
          · intro pr hpr
            rcases List.mem_cons.mp hpr with h | h
            · subst h; exact hM
            · exact hd pr h
          · intro u hu
            have hw := occursIn_var_inv
              (show OccursIn u (.Var ⟨v.name, σ.nextId, σ.cells.length⟩) from hu)
            rw [hw]
            exact hM
          · intro cc
            exact getD_append_none σ.cells cc
      | Pred n args =>
        simp only [instStep, Option.bind] at hrun
        cases hsub : instStep fuel (.l args) d σ with
        | none => rw [hsub] at hrun; dsimp only at hrun; exact Option.noConfusion hrun
        | some r =>
          rw [hsub] at hrun
          obtain ⟨r1, rd, rσ⟩ := r
          cases r1 with
          | t _ => dsimp only at hrun; exact Option.noConfusion hrun
          | p _ => dsimp only at hrun; exact Option.noConfusion hrun
          | c _ => dsimp only at hrun; exact Option.noConfusion hrun
          | l args' =>
            dsimp only at hrun
            simp only [Option.some.injEq, Prod.mk.injEq] at hrun
            obtain ⟨h1, h2, h3⟩ := hrun
            subst h2; subst h3
            have hsub' := ih (.l args) d σ (.l args') rd rσ hsub
              (fun u hu => hocc u (by
                obtain ⟨t, ht, hot⟩ := hu
                exact OccursIn.pred ht hot)) hd hM
            refine ⟨hsub'.1, hsub'.2.1, ?_, hsub'.2.2.2⟩
            intro u hu
            rw [← h1] at hu
            obtain ⟨t, ht, hot⟩ := occursIn_pred_inv (show OccursIn u (.Pred n args') from hu)
            exact hsub'.2.2.1 u ⟨t, ht, hot⟩
      | list l =>
        simp only [instStep, Option.bind] at hrun
        cases hsub : instStep fuel (.l l) d σ with
        | none => rw [hsub] at hrun; dsimp only at hrun; exact Option.noConfusion hrun
        | some r =>
          rw [hsub] at hrun
          obtain ⟨r1, rd, rσ⟩ := r
          cases r1 with
          | t _ => dsimp only at hrun; exact Option.noConfusion hrun
          | p _ => dsimp only at hrun; exact Option.noConfusion hrun
          | c _ => dsimp only at hrun; exact Option.noConfusion hrun
          | l l' =>
            dsimp only at hrun
            simp only [Option.some.injEq, Prod.mk.injEq] at hrun
            obtain ⟨h1, h2, h3⟩ := hrun
            subst h2; subst h3
            have hsub' := ih (.l l) d σ (.l l') rd rσ hsub
              (fun u hu => hocc u (by
                obtain ⟨t, ht, hot⟩ := hu
                exact OccursIn.list ht hot)) hd hM
            refine ⟨hsub'.1, hsub'.2.1, ?_, hsub'.2.2.2⟩
            intro u hu
            rw [← h1] at hu
            obtain ⟨t, ht, hot⟩ := occursIn_list_inv (show OccursIn u (.list l') from hu)
            exact hsub'.2.2.1 u ⟨t, ht, hot⟩
    | l ts =>
      cases ts with
      | nil =>
        simp only [instStep, Option.some.injEq, Prod.mk.injEq] at hrun
        obtain ⟨h1, h2, h3⟩ := hrun
        subst h2; subst h3
        refine ⟨le_refl _, hd, ?_, fun cc => rfl⟩
        intro u hu
        rw [← h1] at hu
        obtain ⟨t, ht, _⟩ := (show ∃ t ∈ ([] : List Term), OccursIn u t from hu)
        exact absurd ht (List.not_mem_nil t)
      | cons x xs =>
        simp only [instStep, Option.bind] at hrun
        cases hs1 : instStep fuel (.t x) d σ with
        | none => rw [hs1] at hrun; dsimp only at hrun; exact Option.noConfusion hrun
        | some r =>
          rw [hs1] at hrun
          obtain ⟨r1, d₁, σ₁⟩ := r
          cases r1 with
          | l _ => dsimp only at hrun; exact Option.noConfusion hrun
          | p _ => dsimp only at hrun; exact Option.noConfusion hrun
          | c _ => dsimp only at hrun; exact Option.noConfusion hrun
          | t x' =>
            dsimp only at hrun
            have ha := ih (.t x) d σ (.t x') d₁ σ₁ hs1
              (fun u hu => hocc u ⟨x, List.mem_cons_self x xs, hu⟩) hd hM
            cases hs2 : instStep fuel (.l xs) d₁ σ₁ with
            | none => rw [hs2] at hrun; dsimp only at hrun; exact Option.noConfusion hrun
            | some r' =>
              rw [hs2] at hrun
              obtain ⟨r2, d₂, σ₂⟩ := r'
              cases r2 with
              | t _ => dsimp only at hrun; exact Option.noConfusion hrun
              | p _ => dsimp only at hrun; exact Option.noConfusion hrun
              | c _ => dsimp only at hrun; exact Option.noConfusion hrun
              | l xs' =>
                dsimp only at hrun
                simp only [Option.some.injEq, Prod.mk.injEq] at hrun
                obtain ⟨h1, h2, h3⟩ := hrun
                subst h2; subst h3
                have hb := ih (.l xs) d₁ σ₁ (.l xs') d₂ σ₂ hs2
                  (fun u hu => by
                    obtain ⟨t, ht, hot⟩ := hu
                    have h0 := hocc u ⟨t, List.mem_cons_of_mem x ht, hot⟩
                    rw [ha.2.2.2]; exact h0)
                  ha.2.1 (le_trans hM ha.1)
                refine ⟨le_trans ha.1 hb.1, hb.2.1, ?_, ?_⟩
                · intro u hu
                  rw [← h1] at hu
                  obtain ⟨t, ht, hot⟩ := (show ∃ t ∈ x' :: xs', OccursIn u t from hu)
                  rcases List.mem_cons.mp ht with h | h
                  · subst h; exact ha.2.2.1 u hot
                  · exact hb.2.2.1 u ⟨t, h, hot⟩
                · intro cc
                  rw [hb.2.2.2, ha.2.2.2]
    | p pr =>
      simp only [instStep, Option.bind] at hrun
      cases hsub : instStep fuel (.l pr.arguments) d σ with
      | none => rw [hsub] at hrun; dsimp only at hrun; exact Option.noConfusion hrun
      | some r =>
        rw [hsub] at hrun
        obtain ⟨r1, rd, rσ⟩ := r
        cases r1 with
        | t _ => dsimp only at hrun; exact Option.noConfusion hrun
        | p _ => dsimp only at hrun; exact Option.noConfusion hrun
        | c _ => dsimp only at hrun; exact Option.noConfusion hrun
        | l args' =>
          dsimp only at hrun
          simp only [Option.some.injEq, Prod.mk.injEq] at hrun
          obtain ⟨h1, h2, h3⟩ := hrun
          subst h2; subst h3
          have hsub' := ih (.l pr.arguments) d σ (.l args') rd rσ hsub
            (fun u hu => hocc u hu) hd hM
          refine ⟨hsub'.1, hsub'.2.1, ?_, hsub'.2.2.2⟩
          intro u hu
          rw [← h1] at hu
          exact hsub'.2.2.1 u (show ∃ t ∈ args', OccursIn u t from hu)
    | c cl =>
      simp only [instStep, Option.bind] at hrun
      cases hs1 : instStep fuel (.p cl.result) d σ with
      | none => rw [hs1] at hrun; dsimp only at hrun; exact Option.noConfusion hrun
      | some r =>
        rw [hs1] at hrun
        obtain ⟨r1, d₁, σ₁⟩ := r
        cases r1 with
        | t _ => dsimp only at hrun; exact Option.noConfusion hrun
        | l _ => dsimp only at hrun; exact Option.noConfusion hrun
        | c _ => dsimp only at hrun; exact Option.noConfusion hrun
        | p res' =>
          dsimp only at hrun
          have ha := ih (.p cl.result) d σ (.p res') d₁ σ₁ hs1
            (fun u hu => hocc u (Or.inl hu)) hd hM
          cases hs2 : instStep fuel (.l cl.conditions) d₁ σ₁ with
          | none => rw [hs2] at hrun; dsimp only at hrun; exact Option.noConfusion hrun
          | some r' =>
            rw [hs2] at hrun
            obtain ⟨r2, d₂, σ₂⟩ := r'
            cases r2 with
            | t _ => dsimp only at hrun; exact Option.noConfusion hrun
            | p _ => dsimp only at hrun; exact Option.noConfusion hrun
            | c _ => dsimp only at hrun; exact Option.noConfusion hrun
            | l conds' =>
              dsimp only at hrun
              simp only [Option.some.injEq, Prod.mk.injEq] at hrun
              obtain ⟨h1, h2, h3⟩ := hrun
              subst h2; subst h3
              have hb := ih (.l cl.conditions) d₁ σ₁ (.l conds') d₂ σ₂ hs2
                (fun u hu => by
                  have h0 := hocc u (Or.inr hu)
                  rw [ha.2.2.2]; exact h0)
                ha.2.1 (le_trans hM ha.1)
              refine ⟨le_trans ha.1 hb.1, hb.2.1, ?_, ?_⟩
              · intro u hu
                rw [← h1] at hu
                rcases (show OccursInClause u ⟨res', conds'⟩ from hu) with hu | hu
                · exact ha.2.2.1 u hu
                · exact hb.2.2.1 u hu
              · intro cc
                rw [hb.2.2.2, ha.2.2.2]

/-- Membership in `insertNI`. -/
theorem mem_insertNI {l : List Variable} {w v : Variable}
    (h : v ∈ insertNI l w) : v ∈ l ∨ v = w := by
  unfold insertNI at h
  by_cases ha : l.any (fun x => x.sameNI w) = true
  · rw [if_pos ha] at h; exact Or.inl h
  · rw [if_neg ha] at h
    rcases List.mem_append.mp h with h | h
    · exact Or.inl h
    · exact Or.inr (List.mem_singleton.mp h)

/-- Membership in `unionNI`. -/
theorem mem_unionNI : ∀ (m l : List Variable) (v : Variable),
    v ∈ unionNI l m → v ∈ l ∨ v ∈ m := by
  intro m
  induction m with
  | nil => intro l v h; exact Or.inl h
  | cons w ws ih =>
    intro l v h
    rcases ih (insertNI l w) v h with h2 | h2
    · rcases mem_insertNI h2 with h3 | h3
      · exact Or.inl h3
      · exact Or.inr (by rw [h3]; exact List.mem_cons_self w ws)
    · exact Or.inr (List.mem_cons_of_mem w h2)

/-- Every variable returned by `variables` occurs in the request. -/
theorem varsStep_sub :
    ∀ (fuel : Nat) (req : VReq) (vs : List Variable),
      varsStep fuel req = some vs →
      ∀ v ∈ vs, OccursInReq v (match req with | .t x => .t x | .l l => .l l : IReq) := by
  intro fuel
  induction fuel with
  | zero => intro req vs h; exact absurd h (by simp [varsStep])
  | succ fuel ih =>
    intro req vs hrun v hv
    cases req with
    | t x =>
      cases x with
      | Var w =>
        simp only [varsStep, Option.some.injEq] at hrun
        subst hrun
        rcases List.mem_singleton.mp hv with rfl
        exact OccursIn.var
      | Pred n args =>
        simp only [varsStep] at hrun
        obtain ⟨t, ht, hot⟩ := ih (.l args) vs hrun v hv
        exact OccursIn.pred ht hot
      | list l =>
        simp only [varsStep] at hrun
        obtain ⟨t, ht, hot⟩ := ih (.l l) vs hrun v hv
        exact OccursIn.list ht hot
    | l ts =>
      cases ts with
      | nil =>
        simp only [varsStep, Option.some.injEq] at hrun
        subst hrun
        exact absurd hv (List.not_mem_nil v)
      | cons x xs =>
        simp only [varsStep, Option.bind] at hrun
        cases h1 : varsStep fuel (.t x) with
        | none => rw [h1] at hrun; dsimp only at hrun; exact Option.noConfusion hrun
        | some a =>
          rw [h1] at hrun
          dsimp only at hrun
          cases h2 : varsStep fuel (.l xs) with
          | none => simp [h2] at hrun
          | some b =>
            simp only [h2, Option.map] at hrun
            obtain hrun := Option.some.inj hrun
            subst hrun
            rcases mem_unionNI b a v hv with h | h
            · exact ⟨x, List.mem_cons_self x xs, ih (.t x) a h1 v h⟩
            · obtain ⟨t, ht, hot⟩ := ih (.l xs) b h2 v h
              exact ⟨t, List.mem_cons_of_mem x ht, hot⟩

end Prolog

namespace Prolog

/-- The terms reachable by a derivation request. -/
def DAvoids (C : List Nat) : DReq → Prop
  | .p p => ListAvoids C p.arguments
  | .lp p cs => ListAvoids C p.arguments ∧ ∀ cl ∈ cs, ∀ v, OccursInClause v cl → v.cell ∈ C
  | .t x => TermAvoids C x
  | .conj l => ListAvoids C l
  | .compAll vs => ∀ v ∈ vs, v.cell ∉ C

/-- Derivation never writes a protected cell: with every knowledge-base
variable's cell in `C`, all `C` cells unbound and allocated, a store whose
contents avoid `C`, and a goal avoiding `C`, any returning run leaves every
`C` cell exactly as it was. -/
theorem derive_avoid (C : List Nat) (kb : List Clause)
    (hkb : ∀ cl ∈ kb, ∀ v, OccursInClause v cl → v.cell ∈ C) :
    ∀ (fuel : Nat) (req : DReq) (σ : State) (r : Except String (List Variable)) (σ' : State),
      deriveStep false 0 kb fuel req σ = .ret r σ' →
      DAvoids C req →
      (∀ c ∈ C, σ.read c = none) →
      (∀ c ∈ C, c < σ.cells.length) →
      StoreAvoids C σ →
      (∀ c ∈ C, σ'.read c = σ.read c) ∧ StoreAvoids C σ' ∧
        σ.cells.length ≤ σ'.cells.length := by
  intro fuel
  induction fuel with
  | zero => intro _ _ _ _ h; exact Outcome.noConfusion h
  | succ fuel ih =>
    intro req σ r σ' hrun hav hub hrange hσ
    cases req with
    | p p =>
      simp only [deriveStep, gate1_false] at hrun
      exact ih (.lp p kb) σ.shift r σ' hrun ⟨hav, hkb⟩ hub hrange hσ
    | lp p cs =>
      cases cs with
      | nil =>
        simp only [deriveStep] at hrun
        obtain ⟨h1, h2⟩ := Outcome.ret.inj hrun
        subst h2
        exact ⟨fun c _ => rfl, hσ, le_refl _⟩
      | cons c rest =>
        simp only [deriveStep] at hrun
        cases hinst : instStep fuel (.c c) [] σ with
        | none => simp [hinst] at hrun
        | some ires =>
          obtain ⟨r1, d1, σ₁⟩ := ires
          cases r1 with
          | t x => simp [hinst] at hrun
          | l x => simp [hinst] at hrun
          | p x => simp [hinst] at hrun
          | c fact =>
            simp only [hinst] at hrun
            have hin := instStep_cells σ.cells.length fuel (.c c) [] σ (.c fact) d1 σ₁ hinst
              (fun u hu => hub u.cell (hav.2 c (List.mem_cons_self c rest) u hu))
              (by intro pr hpr; cases hpr) (le_refl _)
            have hfact : ∀ u, OccursInClause u fact → u.cell ∉ C := by
              intro u hu hc
              have h1 := hin.2.2.1 u hu
              have h2 := hrange u.cell hc
              omega
            have hub₁ : ∀ cc ∈ C, σ₁.read cc = none := by
              intro cc hcc; rw [hin.2.2.2]; exact hub cc hcc
            have hrange₁ : ∀ cc ∈ C, cc < σ₁.cells.length := by
              intro cc hcc; have := hrange cc hcc; have := hin.1; omega
            have hσ₁ : StoreAvoids C σ₁ := by
              intro cc t h; rw [hin.2.2.2] at h; exact hσ cc t h
            cases hu : unifyStep false 0 fuel [] (.p p fact.result) σ₁ with
            | div => simp [hu] at hrun
            | panic => simp [hu] at hrun
            | ret e σ₂ =>
              have hua := unify_avoid C fuel [] (.p p fact.result) σ₁ e σ₂ hu
                ⟨hav.1, fun t ht v hv => hfact v (Or.inl ⟨t, ht, hv⟩)⟩ hσ₁
              have hub₂ : ∀ cc ∈ C, σ₂.read cc = none := by
                intro cc hcc; rw [hua.1 cc hcc]; exact hub₁ cc hcc
              have hrange₂ : ∀ cc ∈ C, cc < σ₂.cells.length := by
                intro cc hcc; have := hrange₁ cc hcc; have := hua.2.2; omega
              cases e with
              | error err =>
                simp only [hu] at hrun
                have hrest := ih (.lp p rest) σ₂ r σ' hrun
                  ⟨hav.1, fun cl hcl => hav.2 cl (List.mem_cons_of_mem c hcl)⟩
                  hub₂ hrange₂ hua.2.1
                refine ⟨?_, hrest.2.1, ?_⟩
                · intro cc hcc
                  rw [hrest.1 cc hcc, hua.1 cc hcc, hin.2.2.2]
                · have := hin.1; have := hua.2.2; have := hrest.2.2; omega
              | ok u =>
                cases u
                simp only [hu] at hrun
                cases hd2 : deriveStep false 0 kb fuel (.conj fact.conditions) σ₂ with
                | div => simp [hd2] at hrun
                | panic => simp [hd2] at hrun
                | ret e2 σ₃ =>
                  have hconj := fun (vs2 : List Variable) (he : e2 = .ok vs2) =>
                    ih (.conj fact.conditions) σ₂ e2 σ₃ hd2
                      (fun t ht v hv => hfact v (Or.inr ⟨t, ht, hv⟩))
                      hub₂ hrange₂ hua.2.1
                  have hconj' := ih (.conj fact.conditions) σ₂ e2 σ₃ hd2
                    (fun t ht v hv => hfact v (Or.inr ⟨t, ht, hv⟩))
                    hub₂ hrange₂ hua.2.1
                  have hub₃ : ∀ cc ∈ C, σ₃.read cc = none := by
                    intro cc hcc; rw [hconj'.1 cc hcc]; exact hub₂ cc hcc
                  have hrange₃ : ∀ cc ∈ C, cc < σ₃.cells.length := by
                    intro cc hcc; have := hrange₂ cc hcc; have := hconj'.2.2; omega
                  cases e2 with
                  | error err =>
                    simp only [hd2] at hrun
                    have hrest := ih (.lp p rest) σ₃ r σ' hrun
                      ⟨hav.1, fun cl hcl => hav.2 cl (List.mem_cons_of_mem c hcl)⟩
                      hub₃ hrange₃ hconj'.2.1
                    refine ⟨?_, hrest.2.1, ?_⟩
                    · intro cc hcc
                      rw [hrest.1 cc hcc, hconj'.1 cc hcc, hua.1 cc hcc, hin.2.2.2]
                    · have := hin.1; have := hua.2.2
                      have := hconj'.2.2; have := hrest.2.2; omega
                  | ok vs2 =>
                    simp only [hd2] at hrun
                    cases hv : varsStep fuel (.l p.arguments) with
                    | none => simp [hv] at hrun
                    | some vs =>
                      simp only [hv] at hrun
                      have hvsC : ∀ v ∈ vs, v.cell ∉ C := by
                        intro v hvmem
                        obtain ⟨t, ht, hot⟩ := varsStep_sub fuel (.l p.arguments) vs hv v hvmem
                        exact hav.1 t ht v hot
                      cases hca : deriveStep false 0 kb fuel (.compAll vs) σ₃.unshift with
                      | div => simp [hca] at hrun
                      | panic => simp [hca] at hrun
                      | ret ce σ₅ =>
                        simp only [hca] at hrun
                        obtain ⟨h1, h2⟩ := Outcome.ret.inj hrun
                        subst h2
                        have hcomp := ih (.compAll vs) σ₃.unshift ce σ₅ hca hvsC
                          hub₃ hrange₃ hconj'.2.1
                        refine ⟨?_, hcomp.2.1, ?_⟩
                        · intro cc hcc
                          rw [hcomp.1 cc hcc]
                          show σ₃.read cc = σ.read cc
                          rw [hconj'.1 cc hcc, hua.1 cc hcc, hin.2.2.2]
                        · have := hin.1; have := hua.2.2
                          have := hconj'.2.2; have := hcomp.2.2
                          simp only [State.unshift] at hcomp
                          omega
    | t x =>
      cases x with
      | Var v =>
        simp only [deriveStep] at hrun
        obtain ⟨h1, h2⟩ := Outcome.ret.inj hrun
        subst h2
        exact ⟨fun c _ => rfl, hσ, le_refl _⟩
      | Pred n args =>
        simp only [deriveStep] at hrun
        exact ih (.p ⟨n, args⟩) σ r σ' hrun (termAvoids_pred hav) hub hrange hσ
      | list l =>
        simp only [deriveStep] at hrun
        exact ih (.conj l) σ r σ' hrun (termAvoids_list hav) hub hrange hσ
    | conj l =>
      cases l with
      | nil =>
        simp only [deriveStep] at hrun
        obtain ⟨h1, h2⟩ := Outcome.ret.inj hrun
        subst h2
        exact ⟨fun c _ => rfl, hσ, le_refl _⟩
      | cons h t =>
        simp only [deriveStep] at hrun
        cases hh : deriveStep false 0 kb fuel (.t h) σ with
        | div => simp [hh] at hrun
        | panic => simp [hh] at hrun
        | ret e σ₁ =>
          have ha := ih (.t h) σ e σ₁ hh (hav h (List.mem_cons_self h t)) hub hrange hσ
          have hub₁ : ∀ cc ∈ C, σ₁.read cc = none := by
            intro cc hcc; rw [ha.1 cc hcc]; exact hub cc hcc
          have hrange₁ : ∀ cc ∈ C, cc < σ₁.cells.length := by
            intro cc hcc; have := hrange cc hcc; have := ha.2.2; omega
          cases e with
          | error err =>
            simp only [hh] at hrun
            obtain ⟨h1, h2⟩ := Outcome.ret.inj hrun
            subst h2
            exact ha
          | ok vs =>
            simp only [hh] at hrun
            cases ht2 : deriveStep false 0 kb fuel (.conj t) σ₁ with
            | div => simp [ht2] at hrun
            | panic => simp [ht2] at hrun
            | ret e2 σ₂ =>
              have hb := ih (.conj t) σ₁ e2 σ₂ ht2
                (fun s hs => hav s (List.mem_cons_of_mem h hs)) hub₁ hrange₁ ha.2.1
              cases e2 with
              | error err =>
                simp only [ht2] at hrun
                obtain ⟨h1, h2⟩ := Outcome.ret.inj hrun
                subst h2
                refine ⟨?_, hb.2.1, ?_⟩
                · intro cc hcc; rw [hb.1 cc hcc, ha.1 cc hcc]
                · have := ha.2.2; have := hb.2.2; omega
              | ok vs' =>
                simp only [ht2] at hrun
                obtain ⟨h1, h2⟩ := Outcome.ret.inj hrun
                subst h2
                refine ⟨?_, hb.2.1, ?_⟩
                · intro cc hcc; rw [hb.1 cc hcc, ha.1 cc hcc]
                · have := ha.2.2; have := hb.2.2; omega
    | compAll vs =>
      cases vs with
      | nil =>
        simp only [deriveStep] at hrun
        obtain ⟨h1, h2⟩ := Outcome.ret.inj hrun
        subst h2
        exact ⟨fun c _ => rfl, hσ, le_refl _⟩
      | cons v rest =>
        simp only [deriveStep] at hrun
        cases hcomp : Variable.compress fuel [] v σ with
        | div => simp [hcomp] at hrun
        | panic => simp [hcomp] at hrun
        | ret ce σ₁ =>
          simp only [hcomp] at hrun
          have ha := compress_avoid C fuel [] v σ ce σ₁ hcomp
            (hav v (List.mem_cons_self v rest)) hσ
          have hub₁ : ∀ cc ∈ C, σ₁.read cc = none := by
            intro cc hcc; rw [ha.1 cc hcc]; exact hub cc hcc
          have hrange₁ : ∀ cc ∈ C, cc < σ₁.cells.length := by
            intro cc hcc; have := hrange cc hcc; have := ha.2.2; omega
          have hb := ih (.compAll rest) σ₁ r σ' hrun
            (fun w hw => hav w (List.mem_cons_of_mem v hw)) hub₁ hrange₁ ha.2.1
          refine ⟨?_, hb.2.1, ?_⟩
          · intro cc hcc; rw [hb.1 cc hcc, ha.1 cc hcc]
          · have := ha.2.2; have := hb.2.2; omega

/-- C7: deriving a goal never mutates the knowledge base.  Clauses are
immutable values in the embedding (the engine takes `kb` by shared
reference and never writes it, so ids are trivially retained), and the
binding cells of the knowledge base's variables (`C`) — unbound, allocated,
mentioned by no store content nor by the goal — are never written: they
are all still unbound after any returning derivation. -/
theorem claim7_kb_cells_never_written
    (C : List Nat) (fuel : Nat) (p : Predicate) (kb : List Clause)
    (σ σ' : State) (r : Except String (List Variable))
    (hrun : Predicate.derive fuel false 0 p kb σ = .ret r σ')
    (hkb : ∀ cl ∈ kb, ∀ v, OccursInClause v cl → v.cell ∈ C)
    (hub : ∀ c ∈ C, σ.read c = none)
    (hrange : ∀ c ∈ C, c < σ.cells.length)
    (hσ : StoreAvoids C σ)
    (hgoal : ListAvoids C p.arguments) :
    ∀ c ∈ C, σ'.read c = none := by
  intro c hc
  have h := derive_avoid C kb hkb fuel (.p p) σ r σ' hrun hgoal hub hrange hσ
  rw [h.1 c hc]
  exact hub c hc

theorem claim7_witness :
    State.read ⟨3, [none, some (.Pred ⟨"a"⟩ [])], 0⟩ 0 = none :=
  claim7_kb_cells_never_written [0] 10 ⟨⟨"p"⟩, [.Pred ⟨"a"⟩ []]⟩
    [⟨⟨⟨"p"⟩, [.Var ⟨"K", 1, 0⟩]⟩, []⟩] ⟨2, [none], 0⟩
    ⟨3, [none, some (.Pred ⟨"a"⟩ [])], 0⟩ (.ok []) rfl
    (by
      intro cl hcl v hv
      rcases List.mem_singleton.mp hcl with rfl
      rcases hv with ⟨t, ht, hot⟩ | ⟨t, ht, hot⟩
      · rcases List.mem_singleton.mp ht with rfl
        rcases occursIn_var_inv hot with rfl
        exact List.mem_singleton.mpr rfl
      · exact absurd ht (List.not_mem_nil t))
    (by intro c hc; rcases List.mem_singleton.mp hc with rfl; rfl)
    (by intro c hc; rcases List.mem_singleton.mp hc with rfl; exact Nat.zero_lt_one)
    (by
      intro c t h
      cases c with
      | zero => exact absurd h (by simp [State.read, List.getD])
      | succ c => exact absurd h (by cases c <;> simp [State.read, List.getD]))
    (by
      intro t ht v hv
      rcases List.mem_singleton.mp ht with rfl
      obtain ⟨s, hs, _⟩ := occursIn_pred_inv hv
      exact absurd hs (List.not_mem_nil s))
    0 (List.mem_singleton.mpr rfl)

end Prolog

namespace Prolog

/-! ## C2: soundness of unification with respect to walking

`resolveT` is the spec's `walk` applied structurally; this section proves
that a successful `unify` makes both arguments walk to identical terms.
The development is fuel-indexed throughout: `veq σ t u` says the walks
agree whenever both produce a term. -/

theorem optList_cons_some {o : Option Term} {l : List (Option Term)} {ys : List Term}
    (h : optList (o :: l) = some ys) :
    ∃ a as, o = some a ∧ optList l = some as ∧ ys = a :: as := by
  cases o with
  | none => simp [optList] at h
  | some a =>
    cases hl : optList l with
    | none => simp [optList, hl] at h
    | some as =>
      simp [optList, hl] at h
      exact ⟨a, as, rfl, rfl, h.symm⟩

theorem optList_cons_build {o : Option Term} {l : List (Option Term)}
    {a : Term} {as : List Term} (h1 : o = some a) (h2 : optList l = some as) :
    optList (o :: l) = some (a :: as) := by
  subst h1
  simp [optList, h2]

/-- Fuel monotonicity of walking. -/
theorem resolveT_mono (σ : State) :
    ∀ (m n : Nat), m ≤ n → ∀ (t a : Term),
      resolveT m σ t = some a → resolveT n σ t = some a := by
  intro m
  induction m with
  | zero => intro n _ t a h; exact absurd h (by simp [resolveT])
  | succ m ih =>
    intro n hmn t a h
    obtain ⟨n₁, rfl⟩ : ∃ n₁, n = n₁ + 1 := ⟨n - 1, by omega⟩
    have hmn₁ : m ≤ n₁ := by omega
    cases t with
    | Var v =>
      simp only [resolveT] at h ⊢
      cases hc : σ.read v.cell with
      | none => rw [hc] at h; exact h
      | some u => rw [hc] at h; exact ih n₁ hmn₁ u a h
    | Pred nm args =>
      simp only [resolveT] at h ⊢
      cases hl : optList (args.map (resolveT m σ)) with
      | none => rw [hl] at h; exact Option.noConfusion h
      | some l =>
        rw [hl] at h
        have : optList (args.map (resolveT n₁ σ)) = some l := by
          clear h
          induction args generalizing l with
          | nil => simpa [optList] using hl
          | cons x xs ihl =>
            simp only [List.map] at hl ⊢
            obtain ⟨a0, as, h1, h2, h3⟩ := optList_cons_some hl
            subst h3
            exact optList_cons_build (ih n₁ hmn₁ x a0 h1) (ihl as h2)
        rw [this]
        exact h
    | list l0 =>
      simp only [resolveT] at h ⊢
      cases hl : optList (l0.map (resolveT m σ)) with
      | none => rw [hl] at h; exact Option.noConfusion h
      | some l =>
        rw [hl] at h
        have : optList (l0.map (resolveT n₁ σ)) = some l := by
          clear h
          induction l0 generalizing l with
          | nil => simpa [optList] using hl
          | cons x xs ihl =>
            simp only [List.map] at hl ⊢
            obtain ⟨a0, as, h1, h2, h3⟩ := optList_cons_some hl
            subst h3
            exact optList_cons_build (ih n₁ hmn₁ x a0 h1) (ihl as h2)
        rw [this]
        exact h

/-- Determinism of walking (across fuels). -/
theorem resolveT_det {σ : State} {m n : Nat} {t a b : Term}
    (h1 : resolveT m σ t = some a) (h2 : resolveT n σ t = some b) : a = b := by
  rcases Nat.le_total m n with h | h
  · have := resolveT_mono σ m n h t a h1
    rw [this] at h2
    exact Option.some.inj h2
  · have := resolveT_mono σ n m h t b h2
    rw [this] at h1
    exact (Option.some.inj h1).symm

/-- A walked term is a fixpoint of walking (at the same fuel). -/
theorem resolveT_fix (σ : State) :
    ∀ (m : Nat) (t a : Term), resolveT m σ t = some a → resolveT m σ a = some a := by
  intro m
  induction m with
  | zero => intro t a h; exact absurd h (by simp [resolveT])
  | succ m ih =>
    intro t a h
    cases t with
    | Var v =>
      simp only [resolveT] at h
      cases hc : σ.read v.cell with
      | none =>
        rw [hc] at h
        obtain rfl := Option.some.inj h
        simp only [resolveT, hc]
      | some u =>
        rw [hc] at h
        exact resolveT_mono σ m (m + 1) (Nat.le_succ m) a a (ih u a h)
    | Pred nm args =>
      simp only [resolveT] at h
      cases hl : optList (args.map (resolveT m σ)) with
      | none => rw [hl] at h; exact Option.noConfusion h
      | some l =>
        rw [hl] at h
        dsimp only [Option.map] at h
        obtain rfl := Option.some.inj h
        simp only [resolveT]
        have : optList (l.map (resolveT m σ)) = some l := by
          clear h
          induction args generalizing l with
          | nil =>
            simp [optList] at hl
            subst hl
            simp [optList]
          | cons x xs ihl =>
            simp only [List.map] at hl
            obtain ⟨a0, as, h1, h2, h3⟩ := optList_cons_some hl
            subst h3
            simp only [List.map]
            exact optList_cons_build (ih x a0 h1) (ihl as h2)
        rw [this]
        rfl
    | list l0 =>
      simp only [resolveT] at h
      cases hl : optList (l0.map (resolveT m σ)) with
      | none => rw [hl] at h; exact Option.noConfusion h
      | some l =>
        rw [hl] at h
        dsimp only [Option.map] at h
        obtain rfl := Option.some.inj h
        simp only [resolveT]
        have : optList (l.map (resolveT m σ)) = some l := by
          clear h
          induction l0 generalizing l with
          | nil =>
            simp [optList] at hl
            subst hl
            simp [optList]
          | cons x xs ihl =>
            simp only [List.map] at hl
            obtain ⟨a0, as, h1, h2, h3⟩ := optList_cons_some hl
            subst h3
            simp only [List.map]
            exact optList_cons_build (ih x a0 h1) (ihl as h2)
        rw [this]
        rfl

end Prolog

namespace Prolog

/-- Walking equality is symmetric. -/
theorem veq_symm {σ : State} {a b : Term} (h : veq σ a b) : veq σ b a :=
  fun m n x y hx hy => (h n m y x hy hx).symm

theorem getD_none_of_ge : ∀ (l : List (Option Term)) (c : Nat),
    l.length ≤ c → l.getD c none = none := by
  intro l
  induction l with
  | nil => intro c _; rfl
  | cons x xs ih =>
    intro c hc
    cases c with
    | zero => simp at hc
    | succ c => exact ih c (by simpa using hc)

/-- A bound cell is allocated. -/
theorem read_some_lt {σ : State} {c : Nat} {t : Term}
    (h : σ.read c = some t) : c < σ.cells.length := by
  by_contra hge
  rw [show σ.read c = σ.cells.getD c none from rfl,
    getD_none_of_ge σ.cells c (by omega)] at h
  exact Option.noConfusion h

theorem getD_set_self : ∀ (l : List (Option Term)) (c : Nat) (a : Option Term),
    c < l.length → (l.set c a).getD c none = a := by
  intro l
  induction l with
  | nil => intro c a hc; simp at hc
  | cons x xs ih =>
    intro c a hc
    cases c with
    | zero => rfl
    | succ c => exact ih c a (by simpa using hc)

/-- `σ'` extends `σ`: every cell is unchanged or was unbound in `σ`. -/
def Extends (σ σ' : State) : Prop :=
  ∀ c, σ'.read c = σ.read c ∨ σ.read c = none

theorem extends_write_none {σ : State} {c : Nat} {t : Term}
    (h : σ.read c = none) : Extends σ (σ.write c t) := by
  intro c'
  by_cases hc : c = c'
  · subst hc; exact Or.inr h
  · exact Or.inl (getD_set_ne σ.cells c c' (some t) hc)

theorem optList_map_mono {σ : State} {m n : Nat} (hmn : m ≤ n) :
    ∀ (args l : List Term),
      optList (args.map (resolveT m σ)) = some l →
      optList (args.map (resolveT n σ)) = some l := by
  intro args
  induction args with
  | nil => intro l h; simpa using h
  | cons x xs ih =>
    intro l h
    simp only [List.map] at h ⊢
    obtain ⟨a0, as, h1, h2, h3⟩ := optList_cons_some h
    subst h3
    exact optList_cons_build (resolveT_mono σ m n hmn x a0 h1) (ih as h2)

/-- Walking under an extension factors through walking under the base
store: whatever resolves in the extension is the extension-resolution of
something that resolves in the base. -/
theorem resolveT_extends {σ σ' : State} (hex : Extends σ σ') :
    ∀ (m : Nat) (t x : Term), resolveT m σ' t = some x →
      ∃ y, resolveT m σ t = some y ∧ resolveT m σ' y = some x := by
  intro m
  induction m with
  | zero => intro t x h; exact absurd h (by simp [resolveT])
  | succ m ih =>
    intro t x h
    cases t with
    | Var v =>
      rcases hex v.cell with heq | hnone
      · simp only [resolveT] at h ⊢
        rw [heq] at h
        cases hc : σ.read v.cell with
        | none =>
          rw [hc] at h
          exact ⟨.Var v, rfl, by simp only [resolveT, heq, hc]; exact h⟩
        | some u =>
          rw [hc] at h
          obtain ⟨y, hy1, hy2⟩ := ih u x h
          exact ⟨y, hy1, resolveT_mono σ' m (m + 1) (Nat.le_succ m) y x hy2⟩
      · refine ⟨.Var v, ?_, h⟩
        simp only [resolveT, hnone]
    | Pred nm args =>
      simp only [resolveT] at h ⊢
      cases hl : optList (args.map (resolveT m σ')) with
      | none => rw [hl] at h; exact Option.noConfusion h
      | some l =>
        rw [hl] at h
        dsimp only [Option.map] at h
        obtain rfl := Option.some.inj h
        have : ∃ ys, optList (args.map (resolveT m σ)) = some ys ∧
            optList (ys.map (resolveT m σ')) = some l := by
          clear h
          induction args generalizing l with
          | nil =>
            simp [optList] at hl
            subst hl
            exact ⟨[], by simp [optList], by simp [optList]⟩
          | cons z zs ihl =>
            simp only [List.map] at hl
            obtain ⟨a0, as, h1, h2, h3⟩ := optList_cons_some hl
            subst h3
            obtain ⟨y0, hy1, hy2⟩ := ih z a0 h1
            obtain ⟨ys, hys1, hys2⟩ := ihl as h2
            exact ⟨y0 :: ys, optList_cons_build hy1 hys1,
              optList_cons_build hy2 hys2⟩
        obtain ⟨ys, hys1, hys2⟩ := this
        refine ⟨.Pred nm ys, ?_, ?_⟩
        · rw [hys1]; rfl
        · simp only [resolveT]
          rw [hys2]
          rfl
    | list l0 =>
      simp only [resolveT] at h ⊢
      cases hl : optList (l0.map (resolveT m σ')) with
      | none => rw [hl] at h; exact Option.noConfusion h
      | some l =>
        rw [hl] at h
        dsimp only [Option.map] at h
        obtain rfl := Option.some.inj h
        have : ∃ ys, optList (l0.map (resolveT m σ)) = some ys ∧
            optList (ys.map (resolveT m σ')) = some l := by
          clear h
          induction l0 generalizing l with
          | nil =>
            simp [optList] at hl
            subst hl
            exact ⟨[], by simp [optList], by simp [optList]⟩
          | cons z zs ihl =>
            simp only [List.map] at hl
            obtain ⟨a0, as, h1, h2, h3⟩ := optList_cons_some hl
            subst h3
            obtain ⟨y0, hy1, hy2⟩ := ih z a0 h1
            obtain ⟨ys, hys1, hys2⟩ := ihl as h2
            exact ⟨y0 :: ys, optList_cons_build hy1 hys1,
              optList_cons_build hy2 hys2⟩
        obtain ⟨ys, hys1, hys2⟩ := this
        refine ⟨.list ys, ?_, ?_⟩
        · rw [hys1]; rfl
        · simp only [resolveT]
          rw [hys2]
          rfl

/-- Walking equality is preserved by store extensions (new bindings only
refine both sides in the same way). -/
theorem veq_extends {σ σ' : State} (hex : Extends σ σ') {a b : Term}
    (h : veq σ a b) : veq σ' a b := by
  intro m n A B hA hB
  obtain ⟨a₁, ha1, ha2⟩ := resolveT_extends hex m a A hA
  obtain ⟨b₁, hb1, hb2⟩ := resolveT_extends hex n b B hB
  obtain rfl : a₁ = b₁ := h m n a₁ b₁ ha1 hb1
  exact resolveT_det ha2 hb2

/-- Two stores with the same partial walking function. -/
def ResEquiv (σ σ' : State) : Prop :=
  ∀ (m : Nat) (t x : Term),
    (resolveT m σ t = some x → ∃ n, resolveT n σ' t = some x) ∧
    (resolveT m σ' t = some x → ∃ n, resolveT n σ t = some x)

theorem veq_resEquiv {σ σ' : State} (hre : ResEquiv σ σ') {a b : Term}
    (h : veq σ a b) : veq σ' a b := by
  intro m n A B hA hB
  obtain ⟨m', hA'⟩ := (hre m a A).2 hA
  obtain ⟨n', hB'⟩ := (hre n b B).2 hB
  exact h m' n' A B hA' hB'

end Prolog

namespace Prolog

/-- The path-compression write (`compress` copies `w`'s binding up to `v`)
does not change the partial walking function of the store. -/
theorem resEquiv_compress_write {σ : State} {c : Nat} {w : Variable} {s : Term}
    (hc : σ.read c = some (.Var w)) (hw : σ.read w.cell = some s) :
    ResEquiv σ (σ.write c s) := by
  have hlt : c < σ.cells.length := read_some_lt hc
  have hr' : (σ.write c s).read c = some s := getD_set_self σ.cells c (some s) hlt
  have hrne : ∀ c', c' ≠ c → (σ.write c s).read c' = σ.read c' := fun c' h =>
    getD_set_ne σ.cells c c' (some s) (fun he => h he.symm)
  have F : ∀ (m : Nat) (t x : Term), resolveT m σ t = some x →
      ∃ n, resolveT n (σ.write c s) t = some x := by
    intro m
    induction m using Nat.strong_induction_on with
    | _ m ih =>
      cases m with
      | zero => intro t x h; exact absurd h (by simp [resolveT])
      | succ m₁ =>
        intro t x h
        cases t with
        | Var v =>
          by_cases hvc : v.cell = c
          · simp only [resolveT, hvc, hc] at h
            cases m₁ with
            | zero => exact absurd h (by simp [resolveT])
            | succ m₂ =>
              simp only [resolveT, hw] at h
              obtain ⟨n, hn⟩ := ih m₂ (by omega) s x h
              refine ⟨n + 1, ?_⟩
              simp only [resolveT, hvc, hr']
              exact hn
          · simp only [resolveT] at h
            cases hcc : σ.read v.cell with
            | none =>
              rw [hcc] at h
              obtain rfl := Option.some.inj h
              exact ⟨1, by simp only [resolveT, hrne v.cell hvc, hcc]⟩
            | some u =>
              rw [hcc] at h
              obtain ⟨n, hn⟩ := ih m₁ (by omega) u x h
              exact ⟨n + 1, by simp only [resolveT, hrne v.cell hvc, hcc]; exact hn⟩
        | Pred nm args =>
          simp only [resolveT] at h
          cases hl : optList (args.map (resolveT m₁ σ)) with
          | none => rw [hl] at h; exact Option.noConfusion h
          | some l =>
            rw [hl] at h
            dsimp only [Option.map] at h
            obtain rfl := Option.some.inj h
            have hex : ∃ N, optList (args.map (resolveT N (σ.write c s))) = some l := by
              clear h
              induction args generalizing l with
              | nil =>
                simp [optList] at hl
                subst hl
                exact ⟨0, by simp [optList]⟩
              | cons z zs ihl =>
                simp only [List.map] at hl
                obtain ⟨a0, as, h1, h2, h3⟩ := optList_cons_some hl
                subst h3
                obtain ⟨n₁, hn₁⟩ := ih m₁ (by omega) z a0 h1
                obtain ⟨N₂, hN₂⟩ := ihl as h2
                refine ⟨max n₁ N₂, ?_⟩
                simp only [List.map]
                exact optList_cons_build
                  (resolveT_mono _ n₁ (max n₁ N₂) (Nat.le_max_left _ _) z a0 hn₁)
                  (optList_map_mono (Nat.le_max_right n₁ N₂) zs as hN₂)
            obtain ⟨N, hN⟩ := hex
            refine ⟨N + 1, ?_⟩
            simp only [resolveT]
            rw [hN]
            rfl
        | list l0 =>
          simp only [resolveT] at h
          cases hl : optList (l0.map (resolveT m₁ σ)) with
          | none => rw [hl] at h; exact Option.noConfusion h
          | some l =>
            rw [hl] at h
            dsimp only [Option.map] at h
            obtain rfl := Option.some.inj h
            have hex : ∃ N, optList (l0.map (resolveT N (σ.write c s))) = some l := by
              clear h
              induction l0 generalizing l with
              | nil =>
                simp [optList] at hl
                subst hl
                exact ⟨0, by simp [optList]⟩
              | cons z zs ihl =>
                simp only [List.map] at hl
                obtain ⟨a0, as, h1, h2, h3⟩ := optList_cons_some hl
                subst h3
                obtain ⟨n₁, hn₁⟩ := ih m₁ (by omega) z a0 h1
                obtain ⟨N₂, hN₂⟩ := ihl as h2
                refine ⟨max n₁ N₂, ?_⟩
                simp only [List.map]
                exact optList_cons_build
                  (resolveT_mono _ n₁ (max n₁ N₂) (Nat.le_max_left _ _) z a0 hn₁)
                  (optList_map_mono (Nat.le_max_right n₁ N₂) zs as hN₂)
            obtain ⟨N, hN⟩ := hex
            refine ⟨N + 1, ?_⟩
            simp only [resolveT]
            rw [hN]
            rfl
  have B : ∀ (m : Nat) (t x : Term), resolveT m (σ.write c s) t = some x →
      ∃ n, resolveT n σ t = some x := by
    intro m
    induction m using Nat.strong_induction_on with
    | _ m ih =>
      cases m with
      | zero => intro t x h; exact absurd h (by simp [resolveT])
      | succ m₁ =>
        intro t x h
        cases t with
        | Var v =>
          by_cases hvc : v.cell = c
          · simp only [resolveT, hvc, hr'] at h
            obtain ⟨n, hn⟩ := ih m₁ (by omega) s x h
            refine ⟨n + 1 + 1, ?_⟩
            simp only [resolveT, hvc, hc, hw]
            exact hn
          · simp only [resolveT, hrne v.cell hvc] at h
            cases hcc : σ.read v.cell with
            | none =>
              rw [hcc] at h
              obtain rfl := Option.some.inj h
              exact ⟨1, by simp only [resolveT, hcc]⟩
            | some u =>
              rw [hcc] at h
              obtain ⟨n, hn⟩ := ih m₁ (by omega) u x h
              exact ⟨n + 1, by simp only [resolveT, hcc]; exact hn⟩
        | Pred nm args =>
          simp only [resolveT] at h
          cases hl : optList (args.map (resolveT m₁ (σ.write c s))) with
          | none => rw [hl] at h; exact Option.noConfusion h
          | some l =>
            rw [hl] at h
            dsimp only [Option.map] at h
            obtain rfl := Option.some.inj h
            have hex : ∃ N, optList (args.map (resolveT N σ)) = some l := by
              clear h
              induction args generalizing l with
              | nil =>
                simp [optList] at hl
                subst hl
                exact ⟨0, by simp [optList]⟩
              | cons z zs ihl =>
                simp only [List.map] at hl
                obtain ⟨a0, as, h1, h2, h3⟩ := optList_cons_some hl
                subst h3
                obtain ⟨n₁, hn₁⟩ := ih m₁ (by omega) z a0 h1
                obtain ⟨N₂, hN₂⟩ := ihl as h2
                refine ⟨max n₁ N₂, ?_⟩
                simp only [List.map]
                exact optList_cons_build
                  (resolveT_mono _ n₁ (max n₁ N₂) (Nat.le_max_left _ _) z a0 hn₁)
                  (optList_map_mono (Nat.le_max_right n₁ N₂) zs as hN₂)
            obtain ⟨N, hN⟩ := hex
            refine ⟨N + 1, ?_⟩
            simp only [resolveT]
            rw [hN]
            rfl
        | list l0 =>
          simp only [resolveT] at h
          cases hl : optList (l0.map (resolveT m₁ (σ.write c s))) with
          | none => rw [hl] at h; exact Option.noConfusion h
          | some l =>
            rw [hl] at h
            dsimp only [Option.map] at h
            obtain rfl := Option.some.inj h
            have hex : ∃ N, optList (l0.map (resolveT N σ)) = some l := by
              clear h
              induction l0 generalizing l with
              | nil =>
                simp [optList] at hl
                subst hl
                exact ⟨0, by simp [optList]⟩
              | cons z zs ihl =>
                simp only [List.map] at hl
                obtain ⟨a0, as, h1, h2, h3⟩ := optList_cons_some hl
                subst h3
                obtain ⟨n₁, hn₁⟩ := ih m₁ (by omega) z a0 h1
                obtain ⟨N₂, hN₂⟩ := ihl as h2
                refine ⟨max n₁ N₂, ?_⟩
                simp only [List.map]
                exact optList_cons_build
                  (resolveT_mono _ n₁ (max n₁ N₂) (Nat.le_max_left _ _) z a0 hn₁)
                  (optList_map_mono (Nat.le_max_right n₁ N₂) zs as hN₂)
            obtain ⟨N, hN⟩ := hex
            refine ⟨N + 1, ?_⟩
            simp only [resolveT]
            rw [hN]
            rfl
  exact fun m t x => ⟨F m t x, B m t x⟩

end Prolog

namespace Prolog

/-- All cells of occurring variables are allocated (below `n`). -/
def TermBelow (n : Nat) (t : Term) : Prop :=
  ∀ v, OccursIn v t → v.cell < n

def ListBelow (n : Nat) (l : List Term) : Prop :=
  ∀ t ∈ l, TermBelow n t

def StoreBelow (σ : State) : Prop :=
  ∀ c t, σ.read c = some t → TermBelow σ.cells.length t

theorem termBelow_var {n : Nat} {v : Variable}
    (h : TermBelow n (.Var v)) : v.cell < n :=
  h v OccursIn.var

theorem termBelow_pred {n : Nat} {nm : Atom} {args : List Term}
    (h : TermBelow n (.Pred nm args)) : ListBelow n args :=
  fun _ ht v hv => h v (OccursIn.pred ht hv)

theorem termBelow_list {n : Nat} {l : List Term}
    (h : TermBelow n (.list l)) : ListBelow n l :=
  fun _ ht v hv => h v (OccursIn.list ht hv)

theorem storeBelow_write {σ : State} {c : Nat} {t : Term}
    (hσ : StoreBelow σ) (ht : TermBelow σ.cells.length t) :
    StoreBelow (σ.write c t) := by
  intro c' u hu
  have hlen : (σ.write c t).cells.length = σ.cells.length := by
    simp [State.write]
  rw [hlen]
  rcases getD_set_cases σ.cells c c' (some t) u hu with ⟨_, h2⟩ | h2
  · cases h2; exact ht
  · exact hσ c' u h2

/-- Walking equality is preserved from `σ` to `σ'`. -/
def Pres (σ σ' : State) : Prop :=
  ∀ a b : Term, veq σ a b → veq σ' a b

/-- `compress` preserves walking equality, does not touch locked cells,
keeps the store allocated, and does not allocate. -/
theorem compress_evolution :
    ∀ (fuel : Nat) (locked : List Nat) (v : Variable) (σ : State)
      (r : Except String Unit) (σ' : State),
      Variable.compress fuel locked v σ = .ret r σ' →
      StoreBelow σ →
      (∀ c ∈ locked, σ'.read c = σ.read c) ∧ Pres σ σ' ∧ StoreBelow σ' ∧
        σ'.cells.length = σ.cells.length := by
  intro fuel
  induction fuel with
  | zero => intro _ _ _ _ _ h; exact Outcome.noConfusion h
  | succ fuel ih =>
    intro locked v σ r σ' hrun hσ
    by_cases hm : v.cell ∈ locked
    · simp only [Variable.compress, if_pos hm] at hrun
      exact Outcome.noConfusion hrun
    · simp only [Variable.compress, if_neg hm] at hrun
      cases hc : σ.read v.cell with
      | none =>
        simp only [hc] at hrun
        obtain ⟨h1, h2⟩ := Outcome.ret.inj hrun
        subst h2
        exact ⟨fun c _ => rfl, fun a b h => h, hσ, rfl⟩
      | some t =>
        simp only [hc] at hrun
        cases t with
        | Var w =>
          cases hcomp : Variable.compress fuel (v.cell :: locked) w σ with
          | div => simp [hcomp] at hrun
          | panic => simp [hcomp] at hrun
          | ret ce σ₁ =>
            simp only [hcomp] at hrun
            have ha := ih (v.cell :: locked) w σ ce σ₁ hcomp hσ
            by_cases hwm : w.cell ∈ v.cell :: locked
            · rw [if_pos hwm] at hrun
              exact Outcome.noConfusion hrun
            · rw [if_neg hwm] at hrun
              cases hc2 : σ₁.read w.cell with
              | none =>
                simp only [hc2] at hrun
                obtain ⟨h1, h2⟩ := Outcome.ret.inj hrun
                subst h2
                exact ⟨fun c hcm => ha.1 c (List.mem_cons_of_mem _ hcm),
                  ha.2.1, ha.2.2.1, ha.2.2.2⟩
              | some s =>
                simp only [hc2] at hrun
                obtain ⟨h1, h2⟩ := Outcome.ret.inj hrun
                subst h2
                have hvc₁ : σ₁.read v.cell = some (.Var w) := by
                  rw [ha.1 v.cell (List.mem_cons_self _ _)]
                  exact hc
                have hre := resEquiv_compress_write hvc₁ hc2
                refine ⟨?_, ?_, ?_, ?_⟩
                · intro c hcm
                  have hne : v.cell ≠ c := fun he => hm (he ▸ hcm)
                  rw [show (σ₁.write v.cell s).read c = σ₁.read c from
                    getD_set_ne σ₁.cells v.cell c (some s) hne]
                  exact ha.1 c (List.mem_cons_of_mem _ hcm)
                · exact fun a b h => veq_resEquiv hre (ha.2.1 a b h)
                · exact storeBelow_write ha.2.2.1 (ha.2.2.1 w.cell s hc2)
                · rw [show (σ₁.write v.cell s).cells.length = σ₁.cells.length by
                    simp [State.write]]
                  exact ha.2.2.2
        | Pred nm args =>
          obtain ⟨h1, h2⟩ := Outcome.ret.inj hrun
          subst h2
          exact ⟨fun c _ => rfl, fun a b h => h, hσ, rfl⟩
        | list l =>
          obtain ⟨h1, h2⟩ := Outcome.ret.inj hrun
          subst h2
          exact ⟨fun c _ => rfl, fun a b h => h, hσ, rfl⟩

end Prolog

namespace Prolog

/-- Walking equality is reflexive. -/
theorem veq_refl (σ : State) (t : Term) : veq σ t t :=
  fun _ _ _ _ ha hb => resolveT_det ha hb

/-- Pointwise walking equality of argument lists. -/
def veqList (σ : State) (x y : List Term) : Prop :=
  List.Forall₂ (veq σ) x y

theorem veqList_resolve {σ : State} : ∀ {x y : List Term}, veqList σ x y →
    ∀ {p q : Nat} {la lb : List Term},
      optList (x.map (resolveT p σ)) = some la →
      optList (y.map (resolveT q σ)) = some lb → la = lb := by
  intro x y h
  induction h with
  | nil =>
    intro p q la lb ha hb
    exact (Option.some.inj ha).symm.trans (Option.some.inj hb)
  | cons h1 h2 ih =>
    intro p q la lb ha hb
    simp only [List.map] at ha hb
    obtain ⟨a₀, as, he, hta, hla⟩ := optList_cons_some ha
    obtain ⟨b₀, bs, he', htb, hlb⟩ := optList_cons_some hb
    subst hla; subst hlb
    rw [h1 p q a₀ b₀ he he', ih hta htb]

/-- Lift pointwise walking equality to `Pred` terms. -/
theorem veq_pred {σ : State} {n m : Atom} {x y : List Term}
    (he : n = m) (h : veqList σ x y) : veq σ (.Pred n x) (.Pred m y) := by
  intro p q a b ha hb
  cases p with
  | zero => exact Option.noConfusion ha
  | succ p =>
    cases q with
    | zero => exact Option.noConfusion hb
    | succ q =>
      simp only [resolveT] at ha hb
      obtain ⟨la, hoa, hfa⟩ := Option.map_eq_some'.mp ha
      obtain ⟨lb, hob, hfb⟩ := Option.map_eq_some'.mp hb
      subst hfa; subst hfb
      rw [he, veqList_resolve h hoa hob]

/-- Lift pointwise walking equality to `list` terms. -/
theorem veq_list {σ : State} {x y : List Term}
    (h : veqList σ x y) : veq σ (.list x) (.list y) := by
  intro p q a b ha hb
  cases p with
  | zero => exact Option.noConfusion ha
  | succ p =>
    cases q with
    | zero => exact Option.noConfusion hb
    | succ q =>
      simp only [resolveT] at ha hb
      obtain ⟨la, hoa, hfa⟩ := Option.map_eq_some'.mp ha
      obtain ⟨lb, hob, hfb⟩ := Option.map_eq_some'.mp hb
      subst hfa; subst hfb
      rw [veqList_resolve h hoa hob]

/-- Walking through a bound variable: the variable walk-equals anything its
content walk-equals. -/
theorem veq_deref_left {σ : State} {v : Variable} {o t : Term}
    (h : σ.read v.cell = some o) (hv : veq σ o t) : veq σ (.Var v) t := by
  intro m n a b ha hb
  cases m with
  | zero => exact Option.noConfusion ha
  | succ m =>
    simp only [resolveT, h] at ha
    exact hv m n a b ha hb

/-- All variables reachable by a unification request are allocated. -/
def UBelow (n : Nat) : UReq → Prop
  | .t a b => TermBelow n a ∧ TermBelow n b
  | .p a b => ListBelow n a.arguments ∧ ListBelow n b.arguments
  | .pl x y => ListBelow n x ∧ ListBelow n y
  | .l x y => ListBelow n x ∧ ListBelow n y
  | .av v t => v.cell < n ∧ TermBelow n t

/-- What an `Ok` answer to a unification request means, in walking terms. -/
def USound (σ : State) : UReq → Prop
  | .t a b => veq σ a b
  | .p a b => a.name = b.name ∧ veqList σ a.arguments b.arguments
  | .pl x y => veqList σ x y
  | .l x y => veqList σ x y
  | .av v t => veq σ (.Var v) t

end Prolog

namespace Prolog

/-- Evolution and soundness of the unification family (debug off): a
returning run touches no locked cell beyond reading, preserves walking
equality and store allocation, allocates nothing, and an `Ok` answer
makes the two sides of the request walk-equal in the final store. -/
theorem unify_evolution (rfuel : Nat) :
    ∀ (fuel : Nat) (locked : List Nat) (req : UReq) (σ : State)
      (r : Except String Unit) (σ' : State),
      unifyStep false rfuel fuel locked req σ = .ret r σ' →
      StoreBelow σ → UBelow σ.cells.length req →
      ((∀ c ∈ locked, σ'.read c = σ.read c) ∧ Pres σ σ' ∧ StoreBelow σ' ∧
        σ'.cells.length = σ.cells.length) ∧
      (r = .ok () → USound σ' req) := by
  intro fuel
  induction fuel with
  | zero => intro _ _ _ _ _ h; exact Outcome.noConfusion h
  | succ fuel ih =>
    intro locked req σ r σ' hrun hσ hb
    cases req with
    | t a b =>
      simp only [unifyStep, gate2_false] at hrun
      cases a with
      | Var v =>
        cases b with
        | Var w =>
          dsimp only at hrun
          exact ih locked (.av v (.Var w)) σ r σ' hrun hσ ⟨termBelow_var hb.1, hb.2⟩
        | Pred m y =>
          dsimp only at hrun
          exact ih locked (.av v (.Pred m y)) σ r σ' hrun hσ ⟨termBelow_var hb.1, hb.2⟩
        | list y =>
          dsimp only at hrun
          exact ih locked (.av v (.list y)) σ r σ' hrun hσ ⟨termBelow_var hb.1, hb.2⟩
      | Pred n x =>
        cases b with
        | Var w =>
          dsimp only at hrun
          have h := ih locked (.av w (.Pred n x)) σ r σ' hrun hσ ⟨termBelow_var hb.2, hb.1⟩
          exact ⟨h.1, fun hr => veq_symm (h.2 hr)⟩
        | Pred m y =>
          dsimp only at hrun
          have h := ih locked (.p ⟨n, x⟩ ⟨m, y⟩) σ r σ' hrun hσ
            ⟨termBelow_pred hb.1, termBelow_pred hb.2⟩
          exact ⟨h.1, fun hr => veq_pred (h.2 hr).1 (h.2 hr).2⟩
        | list y =>
          dsimp only at hrun
          obtain ⟨h1, h2⟩ := Outcome.ret.inj hrun
          subst h2
          exact ⟨⟨fun c _ => rfl, fun a b h => h, hσ, rfl⟩,
            fun hr => Except.noConfusion (h1.trans hr)⟩
      | list x =>
        cases b with
        | Var w =>
          dsimp only at hrun
          have h := ih locked (.av w (.list x)) σ r σ' hrun hσ ⟨termBelow_var hb.2, hb.1⟩
          exact ⟨h.1, fun hr => veq_symm (h.2 hr)⟩
        | Pred m y =>
          dsimp only at hrun
          obtain ⟨h1, h2⟩ := Outcome.ret.inj hrun
          subst h2
          exact ⟨⟨fun c _ => rfl, fun a b h => h, hσ, rfl⟩,
            fun hr => Except.noConfusion (h1.trans hr)⟩
        | list y =>
          dsimp only at hrun
          have h := ih locked (.l x y) σ r σ' hrun hσ
            ⟨termBelow_list hb.1, termBelow_list hb.2⟩
          exact ⟨h.1, fun hr => veq_list (h.2 hr)⟩
    | p a b =>
      simp only [unifyStep, gate2_false] at hrun
      by_cases hn : a.name = b.name
      · rw [if_pos hn] at hrun
        have h := ih _ _ _ _ _ hrun hσ hb
        exact ⟨h.1, fun hr => ⟨hn, h.2 hr⟩⟩
      · rw [if_neg hn] at hrun
        obtain ⟨h1, h2⟩ := Outcome.ret.inj hrun
        subst h2
        exact ⟨⟨fun c _ => rfl, fun a b h => h, hσ, rfl⟩,
          fun hr => Except.noConfusion (h1.trans hr)⟩
    | pl x y =>
      simp only [unifyStep] at hrun
      cases x with
      | nil =>
        cases y with
        | nil =>
          obtain ⟨h1, h2⟩ := Outcome.ret.inj hrun
          subst h2
          exact ⟨⟨fun c _ => rfl, fun a b h => h, hσ, rfl⟩,
            fun _ => List.Forall₂.nil⟩
        | cons y ys =>
          obtain ⟨h1, h2⟩ := Outcome.ret.inj hrun
          subst h2
          exact ⟨⟨fun c _ => rfl, fun a b h => h, hσ, rfl⟩,
            fun hr => Except.noConfusion (h1.trans hr)⟩
      | cons hd tl =>
        cases y with
        | nil =>
          obtain ⟨h1, h2⟩ := Outcome.ret.inj hrun
          subst h2
          exact ⟨⟨fun c _ => rfl, fun a b h => h, hσ, rfl⟩,
            fun hr => Except.noConfusion (h1.trans hr)⟩
        | cons hd' tl' =>
          dsimp only at hrun
          cases hu : unifyStep false rfuel fuel locked (.t hd hd') σ with
          | div => simp [hu] at hrun
          | panic => simp [hu] at hrun
          | ret e σ₁ =>
            have ha := ih _ _ _ _ _ hu hσ
              ⟨hb.1 hd (List.mem_cons_self hd tl), hb.2 hd' (List.mem_cons_self hd' tl')⟩
            cases e with
            | ok u =>
              cases u
              simp only [hu] at hrun
              have hbt : UBelow σ₁.cells.length (UReq.pl tl tl') := by
                rw [ha.1.2.2.2]
                exact ⟨fun s hs => hb.1 s (List.mem_cons_of_mem hd hs),
                       fun s hs => hb.2 s (List.mem_cons_of_mem hd' hs)⟩
              have hb2 := ih _ _ _ _ _ hrun ha.1.2.2.1 hbt
              refine ⟨⟨?_, ?_, hb2.1.2.2.1, by rw [hb2.1.2.2.2, ha.1.2.2.2]⟩, ?_⟩
              · intro c hcC
                rw [hb2.1.1 c hcC, ha.1.1 c hcC]
              · exact fun a b hv => hb2.1.2.1 a b (ha.1.2.1 a b hv)
              · intro hr
                exact List.Forall₂.cons (hb2.1.2.1 _ _ (ha.2 rfl)) (hb2.2 hr)
            | error err =>
              simp only [hu] at hrun
              obtain ⟨h1, h2⟩ := Outcome.ret.inj hrun
              subst h2
              exact ⟨ha.1, fun hr => Except.noConfusion (h1.trans hr)⟩
    | l x y =>
      simp only [unifyStep, gate2_false] at hrun
      cases x with
      | nil =>
        cases y with
        | nil =>
          obtain ⟨h1, h2⟩ := Outcome.ret.inj hrun
          subst h2
          exact ⟨⟨fun c _ => rfl, fun a b h => h, hσ, rfl⟩,
            fun _ => List.Forall₂.nil⟩
        | cons y ys =>
          obtain ⟨h1, h2⟩ := Outcome.ret.inj hrun
          subst h2
          exact ⟨⟨fun c _ => rfl, fun a b h => h, hσ, rfl⟩,
            fun hr => Except.noConfusion (h1.trans hr)⟩
      | cons hd tl =>
        cases y with
        | nil =>
          obtain ⟨h1, h2⟩ := Outcome.ret.inj hrun
          subst h2
          exact ⟨⟨fun c _ => rfl, fun a b h => h, hσ, rfl⟩,
            fun hr => Except.noConfusion (h1.trans hr)⟩
        | cons hd' tl' =>
          dsimp only at hrun
          cases hu : unifyStep false rfuel fuel locked (.t hd hd') σ with
          | div => simp [hu] at hrun
          | panic => simp [hu] at hrun
          | ret e σ₁ =>
            have ha := ih _ _ _ _ _ hu hσ
              ⟨hb.1 hd (List.mem_cons_self hd tl), hb.2 hd' (List.mem_cons_self hd' tl')⟩
            cases e with
            | ok u =>
              cases u
              simp only [hu] at hrun
              have hbt : UBelow σ₁.cells.length (UReq.l tl tl') := by
                rw [ha.1.2.2.2]
                exact ⟨fun s hs => hb.1 s (List.mem_cons_of_mem hd hs),
                       fun s hs => hb.2 s (List.mem_cons_of_mem hd' hs)⟩
              have hb2 := ih _ _ _ _ _ hrun ha.1.2.2.1 hbt
              refine ⟨⟨?_, ?_, hb2.1.2.2.1, by rw [hb2.1.2.2.2, ha.1.2.2.2]⟩, ?_⟩
              · intro c hcC
                rw [hb2.1.1 c hcC, ha.1.1 c hcC]
              · exact fun a b hv => hb2.1.2.1 a b (ha.1.2.1 a b hv)
              · intro hr
                exact List.Forall₂.cons (hb2.1.2.1 _ _ (ha.2 rfl)) (hb2.2 hr)
            | error err =>
              simp only [hu] at hrun
              obtain ⟨h1, h2⟩ := Outcome.ret.inj hrun
              subst h2
              exact ⟨ha.1, fun hr => Except.noConfusion (h1.trans hr)⟩
    | av v t =>
      by_cases hm : v.cell ∈ locked
      · simp only [unifyStep, if_pos hm] at hrun
        exact Outcome.noConfusion hrun
      · simp only [unifyStep, if_neg hm] at hrun
        cases hc : σ.read v.cell with
        | none =>
          simp only [hc] at hrun
          cases hcomp : Variable.compress fuel locked v (σ.write v.cell t) with
          | div => simp [hcomp] at hrun
          | panic => simp [hcomp] at hrun
          | ret ce σ₂ =>
            simp only [hcomp, gate2_false] at hrun
            obtain ⟨h1, h2⟩ := Outcome.ret.inj hrun
            subst h2
            have hσ₁ : StoreBelow (σ.write v.cell t) := storeBelow_write hσ hb.2
            have hcomp' := compress_evolution fuel locked v (σ.write v.cell t) ce σ₂ hcomp hσ₁
            have hlenw : (σ.write v.cell t).cells.length = σ.cells.length := by
              simp [State.write]
            have hread₁ : (σ.write v.cell t).read v.cell = some t :=
              getD_set_self σ.cells v.cell (some t) hb.1
            refine ⟨⟨?_, ?_, hcomp'.2.2.1, by rw [hcomp'.2.2.2, hlenw]⟩, ?_⟩
            · intro c hcC
              have hne : v.cell ≠ c := fun he => hm (he ▸ hcC)
              rw [hcomp'.1 c hcC]
              exact getD_set_ne σ.cells v.cell c (some t) hne
            · exact fun a b h =>
                hcomp'.2.1 a b (veq_extends (extends_write_none hc) h)
            · intro _
              exact hcomp'.2.1 _ _ (veq_deref_left hread₁ (veq_refl _ t))
        | some other =>
          simp only [hc] at hrun
          cases hu : unifyStep false rfuel fuel (v.cell :: locked) (.t other t) σ with
          | div => simp [hu] at hrun
          | panic => simp [hu] at hrun
          | ret e σ₁ =>
            have hother : TermBelow σ.cells.length other := hσ v.cell other hc
            have ha := ih _ _ _ _ _ hu hσ ⟨hother, hb.2⟩
            cases e with
            | error err =>
              simp only [hu] at hrun
              obtain ⟨h1, h2⟩ := Outcome.ret.inj hrun
              subst h2
              refine ⟨⟨?_, ha.1.2.1, ha.1.2.2.1, ha.1.2.2.2⟩,
                fun hr => Except.noConfusion (h1.trans hr)⟩
              intro c hcC
              exact ha.1.1 c (List.mem_cons_of_mem _ hcC)
            | ok u =>
              cases u
              simp only [hu] at hrun
              cases hcomp : Variable.compress fuel locked v σ₁ with
              | div => simp [hcomp] at hrun
              | panic => simp [hcomp] at hrun
              | ret ce σ₂ =>
                simp only [hcomp, gate2_false] at hrun
                obtain ⟨h1, h2⟩ := Outcome.ret.inj hrun
                subst h2
                have hcomp' := compress_evolution fuel locked v σ₁ ce σ₂ hcomp ha.1.2.2.1
                refine ⟨⟨?_, ?_, hcomp'.2.2.1, by rw [hcomp'.2.2.2, ha.1.2.2.2]⟩, ?_⟩
                · intro c hcC
                  rw [hcomp'.1 c hcC]
                  exact ha.1.1 c (List.mem_cons_of_mem _ hcC)
                · exact fun a b h => hcomp'.2.1 a b (ha.1.2.1 a b h)
                · intro _
                  have hvread : σ₁.read v.cell = some other := by
                    rw [ha.1.1 v.cell (List.mem_cons_self _ _)]
                    exact hc
                  exact hcomp'.2.1 _ _ (veq_deref_left hvread (ha.2 rfl))

end Prolog

namespace Prolog

/-- C2: for all Terms `t` and `u`, if `unify(t, u)` returns Ok then, after
the call, walking `t` and walking `u` (dereferencing every Variable through
its binding cell) produce structurally identical Terms — whenever the
walks terminate, at any walking depths.  The hypotheses say the call is a
returning run of `Term::unify` from a well-formed heap: every binding cell
mentioned by the two terms or by the store's contents is allocated. -/
theorem claim2_unify_ok_walk_equal (fuel : Nat) (dbg : Bool) (rfuel : Nat)
    (t u : Term) (σ σ' : State)
    (hrun : Term.unify fuel dbg rfuel [] t u σ = .ret (.ok ()) σ')
    (hσ : StoreBelow σ)
    (ht : TermBelow σ.cells.length t) (hu : TermBelow σ.cells.length u) :
    ∀ m n a b, resolveT m σ' t = some a → resolveT n σ' u = some b → a = b := by
  cases dbg with
  | false =>
    exact (unify_evolution rfuel fuel [] (.t t u) σ (.ok ()) σ' hrun hσ ⟨ht, hu⟩).2 rfl
  | true =>
    have hrun' := unify_debug_indep rfuel fuel [] (.t t u) σ (.ok ()) σ' hrun
    exact (unify_evolution rfuel fuel [] (.t t u) σ (.ok ()) σ' hrun' hσ ⟨ht, hu⟩).2 rfl

theorem claim2_witness :
    Term.unify 10 false 0 [] (.Var ⟨"X", 1, 0⟩) (.Pred ⟨"a"⟩ []) ⟨2, [none], 0⟩ =
      .ret (.ok ()) ⟨2, [some (.Pred ⟨"a"⟩ [])], 0⟩ ∧
    (∀ m n a b,
      resolveT m ⟨2, [some (.Pred ⟨"a"⟩ [])], 0⟩ (.Var ⟨"X", 1, 0⟩) = some a →
      resolveT n ⟨2, [some (.Pred ⟨"a"⟩ [])], 0⟩ (.Pred ⟨"a"⟩ []) = some b → a = b) :=
  ⟨rfl,
   claim2_unify_ok_walk_equal 10 false 0 (.Var ⟨"X", 1, 0⟩) (.Pred ⟨"a"⟩ [])
     ⟨2, [none], 0⟩ ⟨2, [some (.Pred ⟨"a"⟩ [])], 0⟩ rfl
     (by
       intro c s h
       cases c with
       | zero => exact Option.noConfusion h
       | succ c => exact Option.noConfusion h)
     (by
       intro v h
       cases h
       decide)
     (by
       intro v h
       cases h with
       | pred hmem _ => exact absurd hmem (List.not_mem_nil _))⟩

end Prolog
